import Mathlib

/-!
Verification development for the loglow hierarchical logging engine.

This file gives a shallow embedding, in Lean, of the final ("canonical")
configuration engine of the repository together with its metadata
normalizer, config-combinator utilities and locking authority, and proves
properties of that embedding.

Embedded sources (final iterations):
  - src/src/lib/config.ts      (the third, final module in the file:
    applyMiddleware, buildImplementation, getImplementation,
    clearImplementations, ensureImplementationTreeExists,
    setConfiguratorWithLock, setRootConfiguratorWithLock,
    resetConfigWithLock, loadMultipleConfigs, getConfigPaths,
    splitLoggerName, buildLoggerName, wrapConfigurator)
  - src/src/lib/metadata.ts    (defaultMetaTransformer, foldInProperties,
    makeErrorUseful, makeMapUseful, makeSetUseful, makeUndefinedUseful,
    makeUnknownUseful, hasOwnProperty, findMetaFieldType, reduceMetas,
    buildMeta)
  - src/src/lib/config-util.ts (compose, propertySetter, propertyDeleter,
    propertyDefaulter)
  - src/libraries/core/dist/lib/locking.js (isKey, lock, unlock)

Modelling conventions:
  - JavaScript runtime values are the inductive type JSVal below; machine
    details that no theorem touches (NaN, getters, prototype chains,
    property enumeration of exotic objects) are outside the value space.
  - Thrown JavaScript exceptions are modelled with Except, thrown values
    being JSVal.
  - Mutation of the module-level engine state is modelled by explicit
    state passing over EngineState.
  - Function values that occur inside the JS value space (the failing
    middleware stored in a quarantine record) are represented by a
    numeric identity, JSVal.vFun.
-/

/-! ## Logger-name segmentation

The engine splits logger names on the slash character (splitLoggerName,
source line 1437) and joins segment lists back with slashes
(buildLoggerName, source line 1441).  We implement the split directly on
the character list of the string, matching the semantics of the
JavaScript String.prototype.split with a one-character separator, and
prove the round-trip facts the cache-invalidation arguments need. -/

/-- Split a character list at every slash; the accumulator holds the
characters of the current segment in reverse. -/
def splitChars (cur : List Char) : List Char → List (List Char)
  | [] => [cur.reverse]
  | c :: cs =>
      if c = '/' then cur.reverse :: splitChars [] cs
      else splitChars (c :: cur) cs

/-- Embedding of splitLoggerName (config.ts line 1437): split a logger
name into its slash-separated components. -/
def splitLoggerName (s : String) : List String :=
  (splitChars [] s.data).map String.mk

/-- Embedding of buildLoggerName (config.ts line 1441): join name parts
with slashes, as Array.prototype.join with separator "/". -/
def buildLoggerName : List String → String
  | [] => ""
  | [p] => p
  | p :: ps => p ++ "/" ++ buildLoggerName ps

/-- A segment is slash-free when none of its characters is a slash. -/
def slashFree (s : String) : Prop := '/' ∉ s.data

instance (s : String) : Decidable (slashFree s) := by
  unfold slashFree; infer_instance

/-- Character-level join with slash separators. -/
def joinChars : List (List Char) → List Char
  | [] => []
  | [l] => l
  | l :: ls => l ++ '/' :: joinChars ls

/-! ## The JavaScript value space

A mutual inductive family models the runtime values the metadata
normalizer distinguishes (src/src/lib/metadata.ts).  Arrays, object
fields and Map entries are separate list-like types so that all
definitions are structurally recursive and reduce definitionally. -/

mutual
inductive JSVal : Type where
  | vNull
  | vUndefined
  | vBool (b : Bool)
  | vNum (n : Int)
  | vStr (s : String)
  | vDate (time : Int)
  | vFun (id : Nat)
  | vArr (elements : JSList)
  | vErr (name message stack : String) (extras : JSFields)
  | vMap (entries : JSPairs)
  | vSet (values : JSList)
  | vObj (fields : JSFields)

inductive JSList : Type where
  | nil
  | cons (hd : JSVal) (tl : JSList)

inductive JSFields : Type where
  | nil
  | cons (key : String) (value : JSVal) (tl : JSFields)

inductive JSPairs : Type where
  | nil
  | cons (key value : JSVal) (tl : JSPairs)
end

/-- Convert a Lean list of values to a JS array payload. -/
def JSList.ofList : List JSVal → JSList
  | [] => .nil
  | v :: vs => .cons v (JSList.ofList vs)

/-- Number of fields of an object. -/
def JSFields.length : JSFields → Nat
  | .nil => 0
  | .cons _ _ tl => 1 + tl.length

/-- Whether an object has an own field with the given key. -/
def JSFields.hasKey : JSFields → String → Bool
  | .nil, _ => false
  | .cons k _ tl, key => k = key || tl.hasKey key

/-- Read an own field. -/
def JSFields.get : JSFields → String → Option JSVal
  | .nil, _ => none
  | .cons k v tl, key => if k = key then some v else tl.get key

/-- Assign a field as a JavaScript property write does: overwrite in
place when the key exists, append at the end when it is new. -/
def JSFields.set : JSFields → String → JSVal → JSFields
  | .nil, key, v => .cons key v .nil
  | .cons k w tl, key, v =>
      if k = key then .cons k v tl else .cons k w (tl.set key v)

/-- Build an object from a Lean list of key/value pairs. -/
def mkFields : List (String × JSVal) → JSFields
  | [] => .nil
  | (k, v) :: rest => .cons k v (mkFields rest)

/-- The result of the JavaScript typeof operator on a modelled value. -/
def typeofJS : JSVal → String
  | .vNull => "object"
  | .vUndefined => "undefined"
  | .vBool _ => "boolean"
  | .vNum _ => "number"
  | .vStr _ => "string"
  | .vDate _ => "object"
  | .vFun _ => "function"
  | .vArr _ => "object"
  | .vErr _ _ _ _ => "object"
  | .vMap _ => "object"
  | .vSet _ => "object"
  | .vObj _ => "object"

/-- Own enumerable string-keyed properties of a value, as enumerated by
Object.keys and copied by Object.assign / foldInProperties.  For an
error value the extras are its own enumerable properties (name and
message live on the prototype; the V8 stack property is own but not
enumerable).  Arrays, maps, sets, dates, functions and primitives carry
no own enumerable string-keyed properties in the modelled value space. -/
def ownFields : JSVal → JSFields
  | .vObj fs => fs
  | .vErr _ _ _ extras => extras
  | _ => .nil

/-- Property read on a modelled value.  An error value exposes its
name, message and stack, then its extras; an object its fields; every
other read yields undefined (no such read occurs on the paths the
embedded functions take). -/
def getProp (v : JSVal) (prop : String) : JSVal :=
  match v with
  | .vObj fs => (fs.get prop).getD .vUndefined
  | .vErr n m s extras =>
      if prop = "name" then .vStr n
      else if prop = "message" then .vStr m
      else if prop = "stack" then .vStr s
      else (extras.get prop).getD .vUndefined
  | _ => .vUndefined

/-- The TypeError produced when hasOwnProperty is invoked with a null or
undefined receiver (the exact message text models the V8 wording; no
theorem depends on it). -/
def jsTypeErrorToObject : JSVal :=
  .vErr "TypeError" "Cannot convert undefined or null to object" "" .nil

/-- Embedding of hasOwnProperty (metadata.ts lines 114 to 116):
Object.hasOwnProperty.call coerces its receiver to an object and
therefore throws a TypeError when the receiver is null or undefined. -/
def hasOwnPropertyE (v : JSVal) (prop : String) : Except JSVal Bool :=
  match v with
  | .vNull => .error jsTypeErrorToObject
  | .vUndefined => .error jsTypeErrorToObject
  | _ => .ok ((ownFields v).hasKey prop)

/-! ## Metadata normalizer (src/src/lib/metadata.ts)

defaultMetaTransformer (lines 82 to 112) together with its per-kind
helpers, findMetaFieldType (lines 124 to 145), reduceMetas (lines 147
to 166) and buildMeta (lines 174 to 186). -/

/-- Convert Map entries into the array-of-two-element-arrays produced by
the spread of map.entries() in makeMapUseful; the entries are stored
untransformed, exactly as the source stores them. -/
def entriesArray : JSPairs → JSList
  | .nil => .nil
  | .cons k v tl => .cons (.vArr (.cons k (.cons v .nil))) (entriesArray tl)

mutual
/-- Embedding of defaultMetaTransformer (metadata.ts lines 82 to 112).
The branch order follows the source: Array, Error, Map, Set, undefined,
primitives-and-null, plain object (typeof object), catch-all.  A Date
value reaches the plain-object branch (no earlier branch matches) and,
having no own enumerable properties, becomes the empty record; a
function value reaches the catch-all makeUnknownUseful branch. -/
def defaultMetaTransformer : JSVal → JSVal
  | .vArr xs => .vArr (transformElements xs)
  | .vErr n m s extras =>
      .vObj (foldInProperties
        (.cons "@kind" (.vStr "Error")
          (.cons "name" (.vStr n)
            (.cons "message" (.vStr m)
              (.cons "stack" (.vStr s) .nil)))) extras)
  | .vMap entries =>
      -- makeMapUseful folds in the own properties of the Map object,
      -- of which the modelled value space has none, so the fold is the
      -- identity and the tagged base record is the result.
      .vObj (.cons "@kind" (.vStr "Map")
          (.cons "entries" (.vArr (entriesArray entries)) .nil))
  | .vSet values =>
      -- makeSetUseful, same remark about own properties as for Map.
      .vObj (.cons "@kind" (.vStr "Set")
          (.cons "values" (.vArr values) .nil))
  | .vUndefined => .vObj (.cons "@kind" (.vStr "undefined") .nil)
  | .vNull => .vNull
  | .vNum n => .vNum n
  | .vBool b => .vBool b
  | .vStr s => .vStr s
  | .vDate _ => .vObj .nil
  | .vObj fields => .vObj (transformFields fields)
  | .vFun _ =>
      -- makeUnknownUseful with typeof value = "function"; a function
      -- value has no own enumerable properties in the modelled value
      -- space, so the property fold is again the identity.
      .vObj (.cons "@kind" (.vStr "function") .nil)

/-- Element-wise recursive transform of an array (value.map). -/
def transformElements : JSList → JSList
  | .nil => .nil
  | .cons v tl => .cons (defaultMetaTransformer v) (transformElements tl)

/-- Recursive transform of every own field of a plain object (the
isObject branch of defaultMetaTransformer). -/
def transformFields : JSFields → JSFields
  | .nil => .nil
  | .cons k v tl => .cons k (defaultMetaTransformer v) (transformFields tl)

/-- Embedding of foldInProperties (metadata.ts lines 11 to 21): walk the
own enumerable properties of the source and, for each key the
destination does not already have, set the recursively transformed
value. -/
def foldInProperties (dest : JSFields) : JSFields → JSFields
  | .nil => dest
  | .cons k v tl =>
      if dest.hasKey k then foldInProperties dest tl
      else foldInProperties (dest.set k (defaultMetaTransformer v)) tl
end

/-- Embedding of makeErrorUseful (metadata.ts lines 50 to 61) for an
arbitrary caught value: destructure name, message and stack, build the
tagged base record and fold in the own properties of the value. -/
def makeErrorUseful (error : JSVal) : JSFields :=
  foldInProperties
    (.cons "@kind" (.vStr "Error")
      (.cons "name" (getProp error "name")
        (.cons "message" (getProp error "message")
          (.cons "stack" (getProp error "stack") .nil)))) (ownFields error)

/-- Embedding of findMetaFieldType, branches after the tag check
(metadata.ts lines 135 to 144). -/
def findMetaFieldTypeRest (value : JSVal) : Option String :=
  match value with
  | .vErr _ _ _ _ => some "error"
  | .vDate _ => some "date"
  | .vArr _ => some "array"
  | v => if typeofJS v ≠ "object" then some (typeofJS v) else none

/-- Embedding of findMetaFieldType (metadata.ts lines 124 to 145).
The first check reads hasOwnProperty(value, "@kind"), which throws a
TypeError when the value is null or undefined; a string-valued own
tag wins over every later branch. -/
def findMetaFieldType (value : JSVal) : Except JSVal (Option String) := do
  let hk ← hasOwnPropertyE value "@kind"
  if hk then
    match getProp value "@kind" with
    | .vStr tag => pure (some tag)
    | _ => pure (findMetaFieldTypeRest value)
  else
    pure (findMetaFieldTypeRest value)

/-- Collision probe of reduceMetas: the first free key among ty2, ty3,
and so on.  The source loop always terminates because the accumulator
has finitely many keys; the fuel argument, always called with more fuel
than the accumulator has keys, realizes that argument structurally. -/
def probeKey (acc : JSFields) (ty : String) : Nat → Nat → String
  | i, 0 => ty ++ toString i
  | i, fuel + 1 =>
      let propName := ty ++ toString i
      if acc.hasKey propName then probeKey acc ty (i + 1) fuel else propName

/-- Embedding of Object.assign(acc, meta): copy every own enumerable
field of the source over the accumulator, later keys overwriting
earlier ones; a null or undefined source contributes nothing. -/
def objAssign (acc : JSFields) (meta : JSVal) : JSFields :=
  go acc (ownFields meta)
where
  go : JSFields → JSFields → JSFields
    | dest, .nil => dest
    | dest, .cons k v tl => go (dest.set k v) tl

/-- Embedding of reduceMetas (metadata.ts lines 147 to 166): resolve the
field name of the (already transformed) metadata value; with a field
name, store under the first free of ty, ty2, ty3 and so on; without one,
shallow-merge the value into the accumulator. -/
def reduceMetas (acc : JSFields) (meta : JSVal) : Except JSVal JSFields := do
  let ty ← findMetaFieldType meta
  match ty with
  | some ty =>
      if ¬ acc.hasKey ty then pure (acc.set ty meta)
      else pure (acc.set (probeKey acc ty 2 (acc.length + 1)) meta)
  | none => pure (objAssign acc meta)

/-- One iteration of the buildMeta loop body: transform the raw value,
then merge it. -/
def buildMetaStep (acc : JSFields) (meta : JSVal) : Except JSVal JSFields :=
  reduceMetas acc (defaultMetaTransformer meta)

/-- The try-block loop of buildMeta: merge values in order; on a throw,
surface the accumulator reached so far together with the thrown value. -/
def buildMetaLoop (acc : JSFields) : List JSVal → JSFields × Option JSVal
  | [] => (acc, none)
  | meta :: rest =>
      match buildMetaStep acc meta with
      | .ok next => buildMetaLoop next rest
      | .error e => (acc, some e)

/-- The catch block of buildMeta: set the normalized failing error and
the entire original metadata list on the combined record. -/
def addForensics (combined : JSFields) (e : JSVal) (metas : List JSVal) : JSFields :=
  (combined.set "error_loggingMetaMiddleware" (.vObj (makeErrorUseful e))).set
    "error_loggingMetaMiddleware_originalMetas" (.vArr (JSList.ofList metas))

/-- Embedding of buildMeta (metadata.ts lines 174 to 186). -/
def buildMeta (metas : List JSVal) : JSFields :=
  match buildMetaLoop .nil metas with
  | (combined, none) => combined
  | (combined, some e) => addForensics combined e metas

/-! ## Log entries, middleware and deliveries (config.ts, final module)

A middleware is a function of the logger name, the preliminary entry and
a next collector; invoking next pushes an invocation pair.  A middleware
run is modelled as the list of pairs it passes to next, or the value it
throws.  A receiver function is identified by a number; a Delivery
records one invocation of a receiver together with the argument object
the engine builds for it. -/

/-- Preliminary log entry (config.ts lines 1007 to 1011). -/
structure PEntry where
  date : Int
  message : String
  metas : List JSVal

/-- A middleware function: its identity in the JS value space and its
behaviour, the list of invocation pairs it hands to next, or the thrown
value. -/
structure Mw where
  id : Nat
  run : String → PEntry → Except JSVal (List (String × PEntry))

/-- Constant from config.ts line 999. -/
def LOGGER_NAME : String := "@loglow"

/-- Constant from config.ts line 1001. -/
def EXTERNAL_LOGGER_NAME : String := buildLoggerName [LOGGER_NAME, "external"]

/-- Constant from config.ts lines 1002 to 1005. -/
def EXTERNAL_ERROR_LOGGER_NAME : String :=
  buildLoggerName [EXTERNAL_LOGGER_NAME, "errors"]

/-- View of a preliminary entry as a JS object value, for storage inside
quarantine metadata. -/
def entryToVal (e : PEntry) : JSVal :=
  .vObj (.cons "date" (.vDate e.date)
    (.cons "message" (.vStr e.message)
      (.cons "metas" (.vArr (JSList.ofList e.metas)) .nil)))

/-- The TypeError thrown when the engine invokes undefined as a function
(which applyMiddleware does when its middleware list is empty; the
message text models the V8 wording, no theorem depends on it). -/
def typeErrorNotAFunction : JSVal :=
  .vErr "TypeError" "xform is not a function" "" .nil

/-- The single synthetic invocation built by the catch branch of
applyMiddleware (config.ts lines 1274 to 1291): directed at the external
error logger, with the fixed message and one metadata record holding the
thrown value, the entry under processing, and the middleware value. -/
def quarantineInvocation (now : Int) (error : JSVal) (entry : PEntry)
    (mwVal : JSVal) : String × PEntry :=
  (EXTERNAL_ERROR_LOGGER_NAME,
   { date := now,
     message := "An error occurred in middleware",
     metas := [.vObj (.cons "error" error
       (.cons "entry" (entryToVal entry)
         (.cons "middleware" mwVal .nil)))] })

/-- Embedding of applyMiddleware (config.ts lines 1262 to 1307).  The
source destructures the middleware list into its head xform and tail;
with an empty list the head is undefined and invoking it throws a
TypeError which the catch turns into the quarantine invocation, with
middleware: undefined in the metadata.  With a nonempty tail, each
collected invocation is fed through the remaining list and the results
are concatenated in order. -/
def applyMiddleware (now : Int) : List Mw → String → PEntry → List (String × PEntry)
  | [], _loggerName, entry =>
      [quarantineInvocation now typeErrorNotAFunction entry .vUndefined]
  | xform :: remainingMiddlewares, loggerName, entry =>
      match xform.run loggerName entry with
      | .error e => [quarantineInvocation now e entry (.vFun xform.id)]
      | .ok nextInvocations =>
          match remainingMiddlewares with
          | [] => nextInvocations
          | r :: rs =>
              (nextInvocations.map
                (fun p => applyMiddleware now (r :: rs) p.1 p.2)).flatten

/-! ## Configuration values and the configuration record

Configurators are JavaScript functions receiving and returning a plain
mutable object, so the configuration is modelled as a dynamic record:
an ordered association list of fields.  Middleware lists and receiver
functions are not JS data the normalizer ever sees, so they are separate
constructors of the field-value type. -/

/-- A configuration field value. -/
inductive CVal where
  | jsv (v : JSVal)
  | mwList (mws : List Mw)
  | recv (id : Nat)

/-- The dynamic configuration record. -/
def Config : Type := List (String × CVal)

/-- Association-list lookup (Map.prototype.get and plain property read). -/
def lookupEntry {α : Type} : List (String × α) → String → Option α
  | [], _ => none
  | (k, v) :: tl, key => if k = key then some v else lookupEntry tl key

/-- Association-list write: overwrite in place when the key exists,
append at the end when it is new (Map.prototype.set and plain property
write share this semantics). -/
def setEntry {α : Type} : List (String × α) → String → α → List (String × α)
  | [], key, v => [(key, v)]
  | (k, w) :: tl, key, v =>
      if k = key then (k, v) :: tl else (k, w) :: setEntry tl key v

/-- Association-list delete (the delete operator and Map.delete). -/
def delEntry {α : Type} : List (String × α) → String → List (String × α)
  | [], _ => []
  | (k, w) :: tl, key => if k = key then tl else (k, w) :: delEntry tl key

/-- Remove every entry whose key occurs in the given name list. -/
def removeNames {α : Type} : List (String × α) → List String → List (String × α)
  | [], _ => []
  | (k, v) :: tl, names =>
      if names.contains k then removeNames tl names
      else (k, v) :: removeNames tl names

/-- Whether the record has an own field (hasOwnProperty on the
configuration object, config.ts lines 1383 to 1385). -/
def cfgHasOwn (cfg : Config) (key : String) : Bool :=
  (lookupEntry cfg key).isSome

/-- JavaScript truthiness of a modelled value. -/
def jsTruthy : JSVal → Bool
  | .vNull => false
  | .vUndefined => false
  | .vBool b => b
  | .vNum n => n != 0
  | .vStr s => s ≠ ""
  | _ => true

/-- Truthiness of a configuration field value. -/
def cvalTruthy : CVal → Bool
  | .jsv v => jsTruthy v
  | .mwList _ => true
  | .recv _ => true

/-- Boolean(config.enabled) in buildImplementation (line 1235): a
missing field reads as undefined, which is falsy. -/
def configEnabled (cfg : Config) : Bool :=
  match lookupEntry cfg "enabled" with
  | some c => cvalTruthy c
  | none => false

/-- Read config.middleware as the middleware list.  The final shape
types the field Array of Middleware; a missing or differently shaped
field is read as the empty list (no claim exercises an ill-typed
middleware field). -/
def readMiddleware (cfg : Config) : List Mw :=
  match lookupEntry cfg "middleware" with
  | some (.mwList l) => l
  | _ => []

/-- Convert a JS array payload back to a Lean list. -/
def JSList.toList : JSList → List JSVal
  | .nil => []
  | .cons v tl => v :: tl.toList

/-- Read config.decorations as a list of metadata values; same typing
remark as for readMiddleware. -/
def readDecorations (cfg : Config) : List JSVal :=
  match lookupEntry cfg "decorations" with
  | some (.jsv (.vArr l)) => l.toList
  | _ => []

/-- The identity of the no-op default receiver. -/
def NOOP_RECEIVER : Nat := 0

/-- Read config.receiver; same typing remark as for readMiddleware. -/
def readReceiver (cfg : Config) : Nat :=
  match lookupEntry cfg "receiver" with
  | some (.recv id) => id
  | _ => NOOP_RECEIVER

/-- A configurator: a function from configuration to configuration that
may throw. -/
def Configurator : Type := Config → Except JSVal Config

/-- Embedding of wrapConfigurator (config.ts lines 1483 to 1512).
Wrapping null returns null.  The wrapper re-raises whatever the wrapped
configurator throws after splicing the registration-time stack snapshot
into the stack string of the error; stack strings are runtime artifacts
outside the modelled value space, so the wrapped configurator has the
behaviour of the underlying function. -/
def wrapConfigurator : Option Configurator → Option Configurator
  | none => none
  | some f => some f

/-! ## Config combinator utilities (src/src/lib/config-util.ts)

compose, propertySetter, propertyDeleter and propertyDefaulter, which
operate on the dynamic configuration record.  propertyAppender and
addDecorator mutate a list shared through the shallow default-config
copy; no claim concerns them and aliasing is outside this embedding. -/

/-- Embedding of compose (config-util.ts lines 1 to 8). -/
def compose (configurators : List Configurator) : Configurator :=
  fun cfg => configurators.foldlM (fun c k => k c) cfg

/-- Embedding of propertySetter (config-util.ts lines 32 to 37). -/
def propertySetter (propName : String) (value : CVal) : Configurator :=
  fun cfg => .ok (setEntry cfg propName value)

/-- Embedding of propertyDeleter (config-util.ts lines 16 to 21). -/
def propertyDeleter (propName : String) : Configurator :=
  fun cfg => .ok (delEntry cfg propName)

/-- Embedding of propertyDefaulter (config-util.ts lines 23 to 30). -/
def propertyDefaulter (propName : String) (defaultValue : CVal) : Configurator :=
  fun cfg => .ok (if cfgHasOwn cfg propName then cfg else setEntry cfg propName defaultValue)

/-! ## The implementation presence tree (config.ts lines 1127 to 1205)

A mutual inductive mirrors the tree of nodes with a present flag and a
Map of children keyed by name segment. -/

mutual
inductive TreeNode : Type where
  | mk (present : Bool) (children : TreeChildren)

inductive TreeChildren : Type where
  | nil
  | cons (key : String) (node : TreeNode) (tl : TreeChildren)
end

/-- The present flag of a node. -/
def TreeNode.present : TreeNode → Bool
  | .mk p _ => p

/-- The children of a node. -/
def TreeNode.children : TreeNode → TreeChildren
  | .mk _ c => c

/-- Map.prototype.get on the children. -/
def TreeChildren.get : TreeChildren → String → Option TreeNode
  | .nil, _ => none
  | .cons k n tl, key => if k = key then some n else tl.get key

/-- Map.prototype.set on the children: replace in place, else append. -/
def TreeChildren.setChild : TreeChildren → String → TreeNode → TreeChildren
  | .nil, key, n => .cons key n .nil
  | .cons k m tl, key, n =>
      if k = key then .cons k n tl else .cons k m (tl.setChild key n)

/-- A fresh node: not present, no children (config.ts line 1340). -/
def emptyTreeNode : TreeNode := .mk false .nil

/-- Embedding of getImplementationTree (config.ts lines 1151 to 1163),
generalized to start from any node: descend along the given segments,
returning none as soon as a child is missing. -/
def nodeAt : TreeNode → List String → Option TreeNode
  | t, [] => some t
  | t, c :: cs =>
      match t.children.get c with
      | some child => nodeAt child cs
      | none => none

/-- Embedding of ensureImplementationTreeExists (config.ts lines 1330
to 1346) fused with the targetTree.present = true assignment its caller
getImplementation performs (line 1219): create every missing node along
the path with a false present flag, and set the flag of the final node. -/
def markPresentAt : TreeNode → List String → TreeNode
  | .mk _ cs, [] => .mk true cs
  | .mk p cs, c :: rest =>
      match cs.get c with
      | some child => .mk p (cs.setChild c (markPresentAt child rest))
      | none => .mk p (cs.setChild c (markPresentAt emptyTreeNode rest))

mutual
/-- Clear the present flag of every node of a subtree; the per-node
effect of the traversal loop of clearImplementations (line 1185). -/
def clearSubtree : TreeNode → TreeNode
  | .mk _ cs => .mk false (clearSubtreeChildren cs)

def clearSubtreeChildren : TreeChildren → TreeChildren
  | .nil => .nil
  | .cons k t tl => .cons k (clearSubtree t) (clearSubtreeChildren tl)
end

mutual
/-- Names the traversal of clearImplementations deletes from the
implementation map: every node of the subtree whose present flag is set,
under the name rebuilt with buildLoggerName(name, component) (config.ts
line 1190).  The source visits nodes breadth-first; deletion order does
not affect the resulting map, and this list collects the same names
depth-first. -/
def presentNames (name : String) : TreeNode → List String
  | .mk p cs => (if p then [name] else []) ++ presentNamesChildren name cs

def presentNamesChildren (name : String) : TreeChildren → List String
  | .nil => []
  | .cons k t tl =>
      presentNames (buildLoggerName [name, k]) t ++ presentNamesChildren name tl
end

/-- Replace the subtree at the given path; used to re-plant a cleared
subtree into the whole tree.  A missing path leaves the tree unchanged
(clearImplementations only replaces at paths it found). -/
def replaceSubtreeAt : TreeNode → List String → TreeNode → TreeNode
  | _, [], newSub => newSub
  | .mk p cs, c :: rest, newSub =>
      match cs.get c with
      | some child => .mk p (cs.setChild c (replaceSubtreeAt child rest newSub))
      | none => .mk p cs

/-! ## The engine state and its operations

Module-level mutable bindings of config.ts (configurators with its ROOT
entry, implementationMap, knownImplementations) and of locking.js
(currentKey) become one explicit state record.  Fresh Symbol lock keys
are modelled by a counter. -/

/-- A cached implementation: the no-op for a disabled logger, or the
closure capturing the resolved configuration (config.ts lines 1233 to
1256). -/
inductive Impl where
  | noop
  | active (config : Config)

/-- The process-wide engine state. -/
structure EngineState where
  rootConfigurator : Option Configurator
  configurators : List (String × Option Configurator)
  implementationMap : List (String × Impl)
  knownImplementations : TreeNode
  currentKey : Option Nat
  nextKeyId : Nat

/-- Embedding of isKey (locking.js lines 5 to 7): a key is authorized
when it is the current key or when no key is outstanding. -/
def isKey (key : Option Nat) (currentKey : Option Nat) : Bool :=
  key == currentKey || currentKey == none

/-- Embedding of lock (locking.js lines 9 to 16): mint and record a
fresh key when none is outstanding, otherwise return null. -/
def lockOp (s : EngineState) : Option Nat × EngineState :=
  match s.currentKey with
  | none =>
      (some s.nextKeyId,
       { s with currentKey := some s.nextKeyId, nextKeyId := s.nextKeyId + 1 })
  | some _ => (none, s)

/-- Embedding of unlock (locking.js lines 20 to 24). -/
def unlockOp (key : Option Nat) (s : EngineState) : EngineState :=
  if isKey key s.currentKey then { s with currentKey := none } else s

/-- Embedding of defaultConfig (config.ts lines 1100 to 1105), field
order as written there. -/
def defaultConfig : Config :=
  [("enabled", .jsv (.vBool false)),
   ("decorations", .jsv (.vArr .nil)),
   ("middleware", .mwList []),
   ("receiver", .recv NOOP_RECEIVER)]

/-- Embedding of DEFAULT_ROOT_CONFIGURATOR (config.ts lines 1106 to
1109): the identity configurator. -/
def DEFAULT_ROOT_CONFIGURATOR : Option Configurator :=
  some (fun config => .ok config)

/-- The module-initialization state: only the ROOT entry in the
configurator map, empty implementation map, an empty tree root, no lock
outstanding. -/
def initialState : EngineState :=
  { rootConfigurator := DEFAULT_ROOT_CONFIGURATOR,
    configurators := [],
    implementationMap := [],
    knownImplementations := emptyTreeNode,
    currentKey := none,
    nextKeyId := 0 }

/-- Embedding of getConfigPaths, inner loop (config.ts lines 1424 to
1428). -/
def prefixPathsFrom (parent : String) : List String → List String
  | [] => []
  | c :: cs =>
      let newPath := buildLoggerName [parent, c]
      newPath :: prefixPathsFrom newPath cs

/-- Embedding of getConfigPaths (config.ts lines 1419 to 1430): the
prefix paths of a name, shortest first. -/
def getConfigPaths (loggerName : String) : List String :=
  match splitLoggerName loggerName with
  | [] => []
  | firstComponent :: components => firstComponent :: prefixPathsFrom firstComponent components

/-- Path loop of loadMultipleConfigs (config.ts lines 1402 to 1410),
instrumented with a flag recording whether the auto-enable assignment
(config.enabled = true when enabled is not an own field, lines 1405 to
1407) ever executed.  A stored null configurator is falsy and skipped
entirely, guard included. -/
def loadConfigsLoop (s : EngineState) :
    Config → Bool → List String → Except JSVal (Config × Bool)
  | config, fired, [] => .ok (config, fired)
  | config, fired, path :: rest =>
      match lookupEntry s.configurators path with
      | some (some configurator) =>
          let step :=
            if ¬ cfgHasOwn config "enabled" then
              (setEntry config "enabled" (.jsv (.vBool true)), true)
            else (config, fired)
          match configurator step.1 with
          | .ok next => loadConfigsLoop s next step.2 rest
          | .error e => .error e
      | _ => loadConfigsLoop s config fired rest

/-- Embedding of loadMultipleConfigs (config.ts lines 1396 to 1412):
start from a shallow copy of defaultConfig, apply the ROOT configurator
when one is stored and truthy, then fold the path configurators.  The
Bool of the result is the auto-enable instrumentation flag. -/
def loadMultipleConfigs (s : EngineState) (configPaths : List String) :
    Except JSVal (Config × Bool) :=
  match s.rootConfigurator with
  | some rootConfigurator =>
      match rootConfigurator defaultConfig with
      | .ok config => loadConfigsLoop s config false configPaths
      | .error e => .error e
  | none => loadConfigsLoop s defaultConfig false configPaths

/-- Embedding of getConfig (config.ts lines 1535 to 1538). -/
def getConfig (s : EngineState) (loggerName : String) : Except JSVal Config :=
  (loadMultipleConfigs s (getConfigPaths loggerName)).map Prod.fst

/-- Embedding of buildImplementation (config.ts lines 1233 to 1256):
resolve the configuration; a disabled logger gets the no-op, an enabled
one the logging closure over the resolved configuration. -/
def buildImplementation (s : EngineState) (loggerName : String) :
    Except JSVal Impl := do
  let config ← getConfig s loggerName
  if configEnabled config then pure (.active config) else pure .noop

/-- One receiver invocation: which receiver, and the fields of the
argument object the engine builds for it (config.ts lines 1249 to 1254:
the object spread of the entry prefixed with the invocation logger
name). -/
structure Delivery where
  receiver : Nat
  loggerName : String
  date : Int
  message : String
  metas : List JSVal

/-- Build the delivery for one middleware invocation pair. -/
def mkDelivery (receiver : Nat) (inv : String × PEntry) : Delivery :=
  { receiver := receiver,
    loggerName := inv.1,
    date := inv.2.date,
    message := inv.2.message,
    metas := inv.2.metas }

/-- The argument object the receiver is passed, as a JS value:
the object literal of { loggerName, ...entry } in source key order. -/
def receiverArg (d : Delivery) : JSVal :=
  .vObj (.cons "loggerName" (.vStr d.loggerName)
    (.cons "date" (.vDate d.date)
      (.cons "message" (.vStr d.message)
        (.cons "metas" (.vArr (JSList.ofList d.metas)) .nil))))

/-- Run a cached implementation on a log call (the closure of
buildImplementation, config.ts lines 1239 to 1255): build the
preliminary entry with decorations prepended to the raw metas, dispatch
the middleware chain, and deliver every resulting invocation to the
configured receiver.  The clock value now stands for every new Date()
of the call. -/
def runImpl (loggerName : String) (impl : Impl) (now : Int)
    (message : String) (metas : List JSVal) : List Delivery :=
  match impl with
  | .noop => []
  | .active config =>
      let entry : PEntry :=
        { date := now, message := message, metas := readDecorations config ++ metas }
      let invocations := applyMiddleware now (readMiddleware config) loggerName entry
      invocations.map (mkDelivery (readReceiver config))

/-- Embedding of getImplementation (config.ts lines 1212 to 1223): a
cache hit returns the cached implementation and leaves the state
untouched; on a miss, buildImplementation runs first (so a throwing
configurator leaves the state untouched), then the tree path is created
and marked present and the implementation is cached. -/
def getImplementation (s : EngineState) (loggerName : String) :
    Except JSVal (Impl × EngineState) :=
  match lookupEntry s.implementationMap loggerName with
  | some implementation => .ok (implementation, s)
  | none =>
      match buildImplementation s loggerName with
      | .error e => .error e
      | .ok newImplementation =>
          .ok (newImplementation,
            { s with
              knownImplementations :=
                markPresentAt s.knownImplementations (splitLoggerName loggerName),
              implementationMap :=
                setEntry s.implementationMap loggerName newImplementation })

/-- Embedding of log (config.ts lines 1313 to 1323): get or build the
implementation, then invoke it; the produced receiver invocations are
the observable output. -/
def logOp (s : EngineState) (loggerName message : String)
    (metas : List JSVal) (now : Int) :
    Except JSVal (List Delivery × EngineState) := do
  let (impl, s2) ← getImplementation s loggerName
  pure (runImpl loggerName impl now message metas, s2)

/-- Embedding of clearImplementations (config.ts lines 1170 to 1195):
locate the subtree of the name; when present, delete every present
name of the subtree from the implementation map and clear every present
flag of the subtree.  The source does both in one breadth-first loop;
the resulting state is the same. -/
def clearImplementations (s : EngineState) (loggerName : String) : EngineState :=
  match nodeAt s.knownImplementations (splitLoggerName loggerName) with
  | none => s
  | some startTree =>
      { s with
        implementationMap :=
          removeNames s.implementationMap (presentNames loggerName startTree),
        knownImplementations :=
          replaceSubtreeAt s.knownImplementations (splitLoggerName loggerName)
            (clearSubtree startTree) }

/-- Embedding of clearAlImplementations (config.ts lines 1201 to 1205),
source spelling kept. -/
def clearAlImplementations (s : EngineState) : EngineState :=
  { s with implementationMap := [], knownImplementations := emptyTreeNode }

/-- Embedding of setConfiguratorWithLock (config.ts lines 1356 to 1368):
with an authorized key, store the wrapped configurator for the exact
name and clear the implementations at and beneath the name; otherwise do
nothing. -/
def setConfiguratorWithLock (key : Option Nat) (loggerName : String)
    (configurator : Option Configurator) (s : EngineState) : EngineState :=
  if isKey key s.currentKey then
    clearImplementations
      { s with configurators :=
          setEntry s.configurators loggerName (wrapConfigurator configurator) }
      loggerName
  else s

/-- Embedding of setRootConfiguratorWithLock (config.ts lines 1370 to
1381). -/
def setRootConfiguratorWithLock (key : Option Nat)
    (configurator : Option Configurator) (s : EngineState) : EngineState :=
  if isKey key s.currentKey then
    clearAlImplementations { s with rootConfigurator := wrapConfigurator configurator }
  else s

/-- Embedding of resetConfigWithLock (config.ts lines 1522 to 1530). -/
def resetConfigWithLock (key : Option Nat) (s : EngineState) : EngineState :=
  if isKey key s.currentKey then
    { s with
      configurators := [],
      rootConfigurator := DEFAULT_ROOT_CONFIGURATOR,
      implementationMap := [],
      knownImplementations := emptyTreeNode }
  else s

/-- States reachable from module initialization through the public
operations (the unlocked public entry points pass a null key to the
WithLock functions; an arbitrary key argument covers both). -/
inductive Reachable : EngineState → Prop where
  | init : Reachable initialState
  | getImplStep {s loggerName impl s2} : Reachable s →
      getImplementation s loggerName = .ok (impl, s2) → Reachable s2
  | setConfiguratorStep {s} (key loggerName configurator) : Reachable s →
      Reachable (setConfiguratorWithLock key loggerName configurator s)
  | setRootStep {s} (key configurator) : Reachable s →
      Reachable (setRootConfiguratorWithLock key configurator s)
  | resetStep {s} (key) : Reachable s → Reachable (resetConfigWithLock key s)
  | lockStep {s} : Reachable s → Reachable (lockOp s).2
  | unlockStep {s} (key) : Reachable s → Reachable (unlockOp key s)

/-- Presence of a cached implementation as the tree records it: the node
reached by the segments exists and its flag is set. -/
def presentAt (t : TreeNode) (segs : List String) : Prop :=
  ∃ node, nodeAt t segs = some node ∧ node.present = true

/-! ## Tree well-formedness

Children maps never hold two entries with the same key (they are built
with Map.prototype.set) and every key is a name segment, hence
slash-free.  Both facts are needed to read the names the invalidation
traversal rebuilds back as segment lists. -/

mutual
def TreeWF : TreeNode → Prop
  | .mk _ cs => TreeChildrenWF cs

def TreeChildrenWF : TreeChildren → Prop
  | .nil => True
  | .cons k t tl => slashFree k ∧ tl.get k = none ∧ TreeWF t ∧ TreeChildrenWF tl
end

/-! ## Names rebuilt by the invalidation traversal -/

/-- The name the clearImplementations traversal carries when it reaches
the node at the given relative segment path below a start name: each
step appends one slash-separated segment. -/
def extendName (name : String) : List String → String
  | [] => name
  | c :: cs => extendName (buildLoggerName [name, c]) cs

/-! ## Cache and presence-tree coherence -/

/-- The coherence invariant: a logger name is a key of the
implementation cache exactly when the presence-tree node reached by its
segments exists with its flag set; and the tree is well-formed. -/
structure Coherent (s : EngineState) : Prop where
  cache_tree : ∀ name : String,
    (lookupEntry s.implementationMap name).isSome = true ↔
      presentAt s.knownImplementations (splitLoggerName name)
  tree_wf : TreeWF s.knownImplementations

/-- Top-level keys of an object value, in property order. -/
def fieldKeys : JSFields → List String
  | .nil => []
  | .cons k _ tl => k :: fieldKeys tl

/-- Top-level keys of a value (empty for non-objects). -/
def topKeys : JSVal → List String
  | .vObj fs => fieldKeys fs
  | _ => []

/-- The receiver argument the specification sentence for the final
delivery step describes, modelled from the spec words: the entry fields
with the normalized metadata record under the meta key in place of the
raw metas list.  (The superseded second iteration of config.ts, lines
677 to 685, behaves this way; the final module does not.) -/
def receiverArgSpec (d : Delivery) : JSVal :=
  .vObj (.cons "loggerName" (.vStr d.loggerName)
    (.cons "date" (.vDate d.date)
      (.cons "message" (.vStr d.message)
        (.cons "meta" (.vObj (buildMeta d.metas)) .nil))))

/-- A configurator preserves the own enabled field. -/
def preservesEnabledField (c : Configurator) : Prop :=
  ∀ cfg cfg2, cfgHasOwn cfg "enabled" = true → c cfg = .ok cfg2 →
    cfgHasOwn cfg2 "enabled" = true

/-! Concrete scenario states used by witnesses and counterexamples. -/

/-- A pass-through middleware: hands its entry onward unchanged. -/
def passMw : Mw := ⟨1, fun loggerName entry => .ok [(loggerName, entry)]⟩

/-- A middleware that always throws. -/
def throwMw : Mw := ⟨2, fun _ _ => .error (.vStr "boom")⟩

/-- The identity configurator. -/
def idCfg : Configurator := fun config => .ok config

/-- A root configurator that enables logging with a pass-through
middleware and receiver number one. -/
def enableWithPassCfg : Configurator :=
  compose [propertySetter "enabled" (.jsv (.vBool true)),
           propertySetter "middleware" (.mwList [passMw]),
           propertySetter "receiver" (.recv 1)]

/-- A root configurator that merely enables logging (middleware list
stays the default empty list). -/
def enableOnlyCfg : Configurator := propertySetter "enabled" (.jsv (.vBool true))

/-- A root configurator that enables logging with the throwing
middleware. -/
def enableWithThrowCfg : Configurator :=
  compose [propertySetter "enabled" (.jsv (.vBool true)),
           propertySetter "middleware" (.mwList [throwMw]),
           propertySetter "receiver" (.recv 1)]

/-- A root configurator that itself throws. -/
def throwingRootCfg : Configurator := fun _ => .error (.vStr "boom")

def c1State : EngineState :=
  setRootConfiguratorWithLock none (some enableOnlyCfg) initialState

def c1Config : Config :=
  [("enabled", .jsv (.vBool true)),
   ("decorations", .jsv (.vArr .nil)),
   ("middleware", .mwList []),
   ("receiver", .recv 0)]

def c2State : EngineState :=
  setRootConfiguratorWithLock none (some enableWithPassCfg) initialState

def c2Config : Config :=
  [("enabled", .jsv (.vBool true)),
   ("decorations", .jsv (.vArr .nil)),
   ("middleware", .mwList [passMw]),
   ("receiver", .recv 1)]

def c2StateAfter : EngineState :=
  { c2State with
    knownImplementations := markPresentAt c2State.knownImplementations (splitLoggerName "app"),
    implementationMap := setEntry c2State.implementationMap "app" (.active c2Config) }

/-- The delivery the c2State scenario produces for a single log call
with one error-valued metadata argument. -/
def c2Delivery : Delivery :=
  { receiver := 1, loggerName := "app", date := 0, message := "m",
    metas := [.vErr "Error" "boom" "trace" .nil] }

def c6State : EngineState :=
  setRootConfiguratorWithLock none (some enableWithThrowCfg) initialState

def c6Config : Config :=
  [("enabled", .jsv (.vBool true)),
   ("decorations", .jsv (.vArr .nil)),
   ("middleware", .mwList [throwMw]),
   ("receiver", .recv 1)]

def c6StateAfter : EngineState :=
  { c6State with
    knownImplementations := markPresentAt c6State.knownImplementations (splitLoggerName "app"),
    implementationMap := setEntry c6State.implementationMap "app" (.active c6Config) }

def c9State : EngineState :=
  setConfiguratorWithLock none "a" (some (propertyDeleter "enabled"))
    (setConfiguratorWithLock none "a/b" (some idCfg) initialState)

/-- The configuration c9State resolves for the logger a/b: the deleter
at path a removes the own enabled field, so the auto-enable guard at
path a/b fires and re-appends enabled as true. -/
def c9ResolvedConfig : Config :=
  [("decorations", .jsv (.vArr .nil)),
   ("middleware", .mwList []),
   ("receiver", .recv 0),
   ("enabled", .jsv (.vBool true))]

def c10ThrowState : EngineState :=
  setRootConfiguratorWithLock none (some throwingRootCfg) initialState

theorem splitChars_ne_nil (cur : List Char) (cs : List Char) :
    splitChars cur cs ≠ [] := by
  induction cs generalizing cur with
  | nil => simp [splitChars]
  | cons c cs ih =>
      by_cases h : c = '/'
      · subst h; simp [splitChars]
      · rw [splitChars, if_neg h]; exact ih (c :: cur)

theorem joinChars_cons_of_ne_nil (l : List Char) (ls : List (List Char))
    (h : ls ≠ []) : joinChars (l :: ls) = l ++ '/' :: joinChars ls := by
  cases ls with
  | nil => exact absurd rfl h
  | cons a as => rfl

theorem joinChars_splitChars (cs : List Char) (cur : List Char) :
    joinChars (splitChars cur cs) = cur.reverse ++ cs := by
  induction cs generalizing cur with
  | nil => simp [splitChars, joinChars]
  | cons c cs ih =>
      by_cases h : c = '/'
      · subst h
        rw [splitChars, if_pos rfl,
          joinChars_cons_of_ne_nil _ _ (splitChars_ne_nil [] cs), ih []]
        simp
      · rw [splitChars, if_neg h, ih (c :: cur)]
        simp

theorem string_eq_of_data_eq {a b : String} (h : a.data = b.data) : a = b := by
  cases a; cases b; exact congrArg String.mk h

theorem data_mk (l : List Char) : (String.mk l).data = l := rfl

/-- Joining the string segments is joining the character segments. -/
theorem buildLoggerName_map_mk (ls : List (List Char)) :
    buildLoggerName (ls.map String.mk) = String.mk (joinChars ls) := by
  induction ls with
  | nil => rfl
  | cons l ls ih =>
      cases ls with
      | nil => rfl
      | cons a as =>
          apply string_eq_of_data_eq
          have hstep : buildLoggerName (List.map String.mk (l :: a :: as)) =
              String.mk l ++ "/" ++ buildLoggerName (List.map String.mk (a :: as)) := rfl
          rw [hstep, String.data_append, String.data_append, ih,
            joinChars_cons_of_ne_nil l (a :: as) (List.cons_ne_nil a as)]
          show l ++ "/".data ++ joinChars (a :: as) = l ++ '/' :: joinChars (a :: as)
          have hslash : "/".data = ['/'] := rfl
          rw [hslash]
          simp

/-- Round trip: joining the split of a name yields the name back. -/
theorem buildLoggerName_splitLoggerName (s : String) :
    buildLoggerName (splitLoggerName s) = s := by
  unfold splitLoggerName
  rw [buildLoggerName_map_mk, joinChars_splitChars]
  exact string_eq_of_data_eq rfl

/-- Splitting never yields the empty segment list. -/
theorem splitLoggerName_ne_nil (s : String) : splitLoggerName s ≠ [] := by
  unfold splitLoggerName
  intro h
  exact splitChars_ne_nil [] s.data (by simpa using h)

theorem splitChars_slashFree (cs : List Char) (cur : List Char)
    (hcur : '/' ∉ cur) :
    ∀ seg ∈ splitChars cur cs, '/' ∉ seg := by
  induction cs generalizing cur with
  | nil =>
      intro seg hseg
      simp [splitChars] at hseg
      subst hseg
      simpa using hcur
  | cons c cs ih =>
      intro seg hseg
      by_cases h : c = '/'
      · subst h
        simp [splitChars] at hseg
        rcases hseg with hseg | hseg
        · subst hseg; simpa using hcur
        · exact ih [] (by simp) seg hseg
      · rw [splitChars, if_neg h] at hseg
        refine ih (c :: cur) ?_ seg hseg
        intro hm
        rcases List.mem_cons.mp hm with hm | hm
        · exact h hm.symm
        · exact hcur hm

/-- Every segment a split produces is slash-free. -/
theorem splitLoggerName_slashFree (s : String) :
    ∀ seg ∈ splitLoggerName s, slashFree seg := by
  intro seg hseg
  unfold splitLoggerName at hseg
  rcases List.mem_map.mp hseg with ⟨l, hl, rfl⟩
  exact splitChars_slashFree s.data [] (by simp) l hl

theorem splitChars_no_slash (cs : List Char) (cur : List Char)
    (h : '/' ∉ cs) : splitChars cur cs = [cur.reverse ++ cs] := by
  induction cs generalizing cur with
  | nil => simp [splitChars]
  | cons c cs ih =>
      have hc : c ≠ '/' := fun hc => h (hc ▸ List.mem_cons_self c cs)
      rw [splitChars, if_neg hc, ih (c :: cur) (fun hm => h (List.mem_cons_of_mem c hm))]
      simp

/-- A slash-free name splits into the singleton segment list. -/
theorem splitLoggerName_slashFree_eq (s : String) (h : slashFree s) :
    splitLoggerName s = [s] := by
  unfold splitLoggerName
  rw [splitChars_no_slash s.data [] h]
  simp only [List.reverse_nil, List.nil_append, List.map_cons, List.map_nil]

theorem splitChars_append_slash (xs ys : List Char) (cur : List Char)
    (h : '/' ∉ xs) :
    splitChars cur (xs ++ '/' :: ys) = (cur.reverse ++ xs) :: splitChars [] ys := by
  induction xs generalizing cur with
  | nil => simp [splitChars]
  | cons x xs ih =>
      have hx : x ≠ '/' := fun hx => h (hx ▸ List.mem_cons_self x xs)
      rw [List.cons_append, splitChars, if_neg hx,
        ih (x :: cur) (fun hm => h (List.mem_cons_of_mem x hm))]
      simp

/-- Splitting a slash-separated concatenation peels the first segment. -/
theorem splitLoggerName_sep (a t : String) (ha : slashFree a) :
    splitLoggerName (a ++ "/" ++ t) = a :: splitLoggerName t := by
  unfold splitLoggerName
  have hdata : (a ++ "/" ++ t).data = a.data ++ '/' :: t.data := by
    rw [String.data_append, String.data_append]
    show a.data ++ "/".data ++ t.data = _
    rw [show "/".data = ['/'] from rfl]
    simp
  rw [hdata, splitChars_append_slash a.data t.data [] ha]
  simp only [List.reverse_nil, List.nil_append, List.map_cons]

/-- The split of a slash-join of slash-free segments recovers the
segments. -/
theorem splitLoggerName_buildLoggerName (segs : List String)
    (hne : segs ≠ []) (hfree : ∀ seg ∈ segs, slashFree seg) :
    splitLoggerName (buildLoggerName segs) = segs := by
  induction segs with
  | nil => exact absurd rfl hne
  | cons a as ih =>
      cases as with
      | nil =>
          exact splitLoggerName_slashFree_eq a (hfree a (by simp))
      | cons b bs =>
          rw [show buildLoggerName (a :: b :: bs) = a ++ "/" ++ buildLoggerName (b :: bs) from rfl,
            splitLoggerName_sep a _ (hfree a (by simp)),
            ih (List.cons_ne_nil b bs)
              (fun seg hs => hfree seg (List.mem_cons_of_mem a hs))]

/-- Splitting is injective on names. -/
theorem splitLoggerName_injective {a b : String}
    (h : splitLoggerName a = splitLoggerName b) : a = b := by
  have := congrArg buildLoggerName h
  rwa [buildLoggerName_splitLoggerName, buildLoggerName_splitLoggerName] at this

/-- On an error value the general makeErrorUseful agrees with the error
branch of the transformer. -/
theorem defaultMetaTransformer_vErr (n m s : String) (extras : JSFields) :
    defaultMetaTransformer (.vErr n m s extras) = .vObj (makeErrorUseful (.vErr n m s extras)) := rfl

/-! ## Association-list and tree lemmas -/

theorem lookupEntry_setEntry {α : Type} (m : List (String × α)) (k q : String) (v : α) :
    lookupEntry (setEntry m k v) q = if k = q then some v else lookupEntry m q := by
  induction m with
  | nil =>
      by_cases h : k = q <;> simp [setEntry, lookupEntry, h]
  | cons p tl ih =>
      obtain ⟨k0, w⟩ := p
      by_cases h0 : k0 = k
      · subst h0
        by_cases hq : k0 = q <;> simp [setEntry, lookupEntry, hq]
      · by_cases hq : k0 = q
        · subst hq
          have hk : ¬ k = k0 := fun h => h0 h.symm
          simp [setEntry, lookupEntry, h0, hk]
        · simp [setEntry, lookupEntry, h0, hq, ih]

theorem lookupEntry_removeNames {α : Type} (m : List (String × α))
    (names : List String) (q : String) :
    lookupEntry (removeNames m names) q =
      if names.contains q then none else lookupEntry m q := by
  induction m with
  | nil => by_cases h : names.contains q <;> simp [removeNames, lookupEntry, h]
  | cons p tl ih =>
      obtain ⟨k0, w⟩ := p
      by_cases hk : names.contains k0
      · rw [show removeNames ((k0, w) :: tl) names = removeNames tl names from by
          rw [show removeNames ((k0, w) :: tl) names =
            if names.contains k0 then removeNames tl names
            else (k0, w) :: removeNames tl names from rfl, if_pos hk], ih]
        by_cases hq : k0 = q
        · subst hq
          rw [if_pos hk, if_pos hk]
        · rw [show lookupEntry ((k0, w) :: tl) q = lookupEntry tl q from by
            simp [lookupEntry, hq]]
      · rw [show removeNames ((k0, w) :: tl) names = (k0, w) :: removeNames tl names from by
          rw [show removeNames ((k0, w) :: tl) names =
            if names.contains k0 then removeNames tl names
            else (k0, w) :: removeNames tl names from rfl, if_neg hk]]
        by_cases hq : k0 = q
        · subst hq
          rw [show lookupEntry ((k0, w) :: removeNames tl names) k0 = some w from by
            simp [lookupEntry], if_neg hk]
          simp [lookupEntry]
        · rw [show lookupEntry ((k0, w) :: removeNames tl names) q =
              lookupEntry (removeNames tl names) q from by
            simp [lookupEntry, hq], ih]
          by_cases hcq : names.contains q
          · rw [if_pos hcq, if_pos hcq]
          · rw [if_neg hcq, if_neg hcq]
            simp [lookupEntry, hq]

theorem isSome_lookupEntry_setEntry {α : Type} (m : List (String × α))
    (k q : String) (v : α) :
    (lookupEntry (setEntry m k v) q).isSome =
      (k = q || (lookupEntry m q).isSome) := by
  rw [lookupEntry_setEntry]
  by_cases h : k = q <;> simp [h]

theorem TreeChildren.get_setChild : ∀ (cs : TreeChildren) (k q : String) (n : TreeNode),
    (cs.setChild k n).get q = if k = q then some n else cs.get q
  | .nil, k, q, n => by
      by_cases h : k = q <;> simp [TreeChildren.setChild, TreeChildren.get, h]
  | .cons k0 m tl, k, q, n => by
      by_cases h0 : k0 = k
      · subst h0
        by_cases hq : k0 = q <;> simp [TreeChildren.setChild, TreeChildren.get, hq]
      · by_cases hq : k0 = q
        · subst hq
          have hk : ¬ k = k0 := fun h => h0 h.symm
          simp [TreeChildren.setChild, TreeChildren.get, h0, hk]
        · simp [TreeChildren.setChild, TreeChildren.get, h0, hq,
            TreeChildren.get_setChild tl k q n]

theorem nodeAt_mk_cons (p : Bool) (cs : TreeChildren) (c : String) (rest : List String) :
    nodeAt (.mk p cs) (c :: rest) =
      match cs.get c with
      | some child => nodeAt child rest
      | none => none := rfl

theorem presentAt_nil (t : TreeNode) : presentAt t [] ↔ t.present = true := by
  simp [presentAt, nodeAt]

theorem presentAt_empty (segs : List String) : ¬ presentAt emptyTreeNode segs := by
  rintro ⟨node, hn, hp⟩
  cases segs with
  | nil =>
      simp [nodeAt] at hn
      subst hn
      simp [emptyTreeNode, TreeNode.present] at hp
  | cons c cs =>
      simp [nodeAt, emptyTreeNode, TreeChildren.get] at hn

theorem nodeAt_append (t : TreeNode) (a b : List String) :
    nodeAt t (a ++ b) = (nodeAt t a).bind (fun x => nodeAt x b) := by
  induction a generalizing t with
  | nil => simp [nodeAt]
  | cons c cs ih =>
      obtain ⟨p, kids⟩ := t
      rw [List.cons_append]
      show (match kids.get c with
            | some child => nodeAt child (cs ++ b)
            | none => none) = _
      cases h : kids.get c with
      | none => simp [nodeAt_mk_cons, h]
      | some child => simp [nodeAt_mk_cons, h, ih child]

/-- Marking a path present makes exactly that path present and preserves
presence everywhere else. -/
theorem presentAt_markPresentAt (path : List String) (t : TreeNode) (q : List String) :
    presentAt (markPresentAt t path) q ↔ (q = path ∨ presentAt t q) := by
  induction path generalizing t q with
  | nil =>
      obtain ⟨p, cs⟩ := t
      cases q with
      | nil => simp [markPresentAt, presentAt, nodeAt, TreeNode.present]
      | cons c rest =>
          simp only [markPresentAt]
          constructor
          · rintro ⟨node, hn, hp⟩
            exact Or.inr ⟨node, hn, hp⟩
          · rintro (h | ⟨node, hn, hp⟩)
            · exact absurd h (by simp)
            · exact ⟨node, hn, hp⟩
  | cons c restP ih =>
      obtain ⟨p, cs⟩ := t
      cases q with
      | nil =>
          simp only [markPresentAt]
          cases h : cs.get c <;>
            simp [presentAt, nodeAt, TreeNode.present]
      | cons c2 restQ =>
          by_cases hc : c = c2
          · subst hc
            cases h : cs.get c with
            | some child =>
                simp only [markPresentAt, h]
                constructor
                · rintro ⟨node, hn, hp⟩
                  rw [nodeAt_mk_cons] at hn
                  simp [TreeChildren.get_setChild] at hn
                  have : presentAt (markPresentAt child restP) restQ := ⟨node, hn, hp⟩
                  rcases (ih child restQ).mp this with h1 | h1
                  · exact Or.inl (by rw [h1])
                  · right
                    obtain ⟨n2, hn2, hp2⟩ := h1
                    exact ⟨n2, by simp [nodeAt_mk_cons, h, hn2], hp2⟩
                · rintro (heq | ⟨node, hn, hp⟩)
                  · have : restQ = restP := by injection heq
                    subst this
                    rcases (ih child restQ).mpr (Or.inl rfl) with ⟨n2, hn2, hp2⟩
                    exact ⟨n2, by simp [nodeAt_mk_cons, TreeChildren.get_setChild, hn2], hp2⟩
                  · rw [nodeAt_mk_cons, h] at hn
                    rcases (ih child restQ).mpr (Or.inr ⟨node, hn, hp⟩) with ⟨n2, hn2, hp2⟩
                    exact ⟨n2, by simp [nodeAt_mk_cons, TreeChildren.get_setChild, hn2], hp2⟩
            | none =>
                simp only [markPresentAt, h]
                constructor
                · rintro ⟨node, hn, hp⟩
                  rw [nodeAt_mk_cons] at hn
                  simp [TreeChildren.get_setChild] at hn
                  have : presentAt (markPresentAt emptyTreeNode restP) restQ := ⟨node, hn, hp⟩
                  rcases (ih emptyTreeNode restQ).mp this with h1 | h1
                  · exact Or.inl (by rw [h1])
                  · exact absurd h1 (presentAt_empty restQ)
                · rintro (heq | ⟨node, hn, hp⟩)
                  · have : restQ = restP := by injection heq
                    subst this
                    rcases (ih emptyTreeNode restQ).mpr (Or.inl rfl) with ⟨n2, hn2, hp2⟩
                    exact ⟨n2, by simp [nodeAt_mk_cons, TreeChildren.get_setChild, hn2], hp2⟩
                  · rw [nodeAt_mk_cons, h] at hn
                    exact absurd hn (by simp)
          · cases h : cs.get c with
            | some child =>
                simp only [markPresentAt, h]
                constructor
                · rintro ⟨node, hn, hp⟩
                  rw [nodeAt_mk_cons] at hn
                  rw [TreeChildren.get_setChild, if_neg hc] at hn
                  right
                  refine ⟨node, ?_, hp⟩
                  rw [nodeAt_mk_cons]
                  exact hn
                · rintro (heq | ⟨node, hn, hp⟩)
                  · exact absurd heq (by
                      intro h
                      injection h with h1 h2
                      exact hc h1.symm)
                  · rw [nodeAt_mk_cons] at hn
                    refine ⟨node, ?_, hp⟩
                    rw [nodeAt_mk_cons, TreeChildren.get_setChild, if_neg hc]
                    exact hn
            | none =>
                simp only [markPresentAt, h]
                constructor
                · rintro ⟨node, hn, hp⟩
                  rw [nodeAt_mk_cons] at hn
                  rw [TreeChildren.get_setChild, if_neg hc] at hn
                  right
                  refine ⟨node, ?_, hp⟩
                  rw [nodeAt_mk_cons]
                  exact hn
                · rintro (heq | ⟨node, hn, hp⟩)
                  · exact absurd heq (by
                      intro h
                      injection h with h1 h2
                      exact hc h1.symm)
                  · rw [nodeAt_mk_cons] at hn
                    refine ⟨node, ?_, hp⟩
                    rw [nodeAt_mk_cons, TreeChildren.get_setChild, if_neg hc]
                    exact hn

theorem get_clearSubtreeChildren : ∀ (cs : TreeChildren) (k : String),
    (clearSubtreeChildren cs).get k = (cs.get k).map clearSubtree
  | .nil, _ => rfl
  | .cons k0 t tl, k => by
      by_cases h : k0 = k <;>
        simp [clearSubtreeChildren, TreeChildren.get, h, get_clearSubtreeChildren tl k]

theorem nodeAt_clearSubtree (q : List String) (t : TreeNode) :
    nodeAt (clearSubtree t) q = (nodeAt t q).map clearSubtree := by
  induction q generalizing t with
  | nil => simp [nodeAt]
  | cons c cs ih =>
      obtain ⟨p, kids⟩ := t
      show nodeAt (.mk false (clearSubtreeChildren kids)) (c :: cs) = _
      rw [nodeAt_mk_cons, nodeAt_mk_cons, get_clearSubtreeChildren]
      cases kids.get c with
      | none => rfl
      | some child => simp [ih child]

theorem present_clearSubtree (t : TreeNode) : (clearSubtree t).present = false := by
  obtain ⟨p, cs⟩ := t
  rfl

theorem not_presentAt_clearSubtree (t : TreeNode) (q : List String) :
    ¬ presentAt (clearSubtree t) q := by
  rintro ⟨node, hn, hp⟩
  rw [nodeAt_clearSubtree] at hn
  cases h : nodeAt t q with
  | none => rw [h] at hn; exact absurd hn (by simp)
  | some n2 =>
      rw [h] at hn
      simp at hn
      rw [← hn, present_clearSubtree] at hp
      exact absurd hp (by simp)

/-- Presence after replacing the subtree at an existing path: paths
extending the replaced one read in the new subtree, every other path is
untouched. -/
theorem presentAt_replaceSubtreeAt (path : List String) (t sub new : TreeNode)
    (hpath : nodeAt t path = some sub) (q : List String) :
    presentAt (replaceSubtreeAt t path new) q ↔
      (if path.isPrefixOf q then presentAt new (q.drop path.length)
       else presentAt t q) := by
  induction path generalizing t q with
  | nil => simp [replaceSubtreeAt, List.isPrefixOf]
  | cons c restP ih =>
      obtain ⟨p, kids⟩ := t
      rw [nodeAt_mk_cons] at hpath
      cases hget : kids.get c with
      | none => rw [hget] at hpath; exact absurd hpath (by simp)
      | some child =>
          rw [hget] at hpath
          have hred : replaceSubtreeAt (.mk p kids) (c :: restP) new =
              .mk p (kids.setChild c (replaceSubtreeAt child restP new)) := by
            simp only [replaceSubtreeAt, hget]
          rw [hred]
          cases q with
          | nil =>
              simp only [List.isPrefixOf, presentAt, nodeAt, TreeNode.present]
              constructor
              · rintro ⟨n, hn, hp2⟩
                injection hn with hn
                subst hn
                exact ⟨_, rfl, hp2⟩
              · rintro ⟨n, hn, hp2⟩
                injection hn with hn
                subst hn
                exact ⟨_, rfl, hp2⟩
          | cons c2 restQ =>
              by_cases hc : c = c2
              · subst hc
                have hpre : (c :: restP).isPrefixOf (c :: restQ) = restP.isPrefixOf restQ := by
                  simp [List.isPrefixOf]
                rw [hpre]
                have hdrop : (c :: restQ).drop (c :: restP).length = restQ.drop restP.length := by
                  simp
                rw [hdrop]
                have hun : presentAt (.mk p (kids.setChild c (replaceSubtreeAt child restP new)))
                    (c :: restQ) ↔ presentAt (replaceSubtreeAt child restP new) restQ := by
                  unfold presentAt
                  rw [nodeAt_mk_cons]
                  simp [TreeChildren.get_setChild]
                rw [hun, ih child hpath restQ]
                have horig : presentAt (.mk p kids) (c :: restQ) ↔ presentAt child restQ := by
                  unfold presentAt
                  rw [nodeAt_mk_cons, hget]
                rw [horig]
              · have hpre : (c :: restP).isPrefixOf (c2 :: restQ) = false := by
                  simp [List.isPrefixOf]
                  intro h
                  exact absurd h hc
                rw [hpre]
                have hun : presentAt (.mk p (kids.setChild c (replaceSubtreeAt child restP new)))
                    (c2 :: restQ) ↔ presentAt (.mk p kids) (c2 :: restQ) := by
                  unfold presentAt
                  rw [nodeAt_mk_cons, nodeAt_mk_cons, TreeChildren.get_setChild, if_neg hc]
                rw [hun]
                simp

theorem treeWF_empty : TreeWF emptyTreeNode := by
  show TreeChildrenWF .nil
  trivial

theorem treeChildrenWF_get : ∀ (cs : TreeChildren) (k : String) (t : TreeNode),
    TreeChildrenWF cs → cs.get k = some t → slashFree k ∧ TreeWF t
  | .nil, k, t, _, hget => by simp [TreeChildren.get] at hget
  | .cons k0 t0 tl, k, t, hwf, hget => by
      obtain ⟨hfree, hnodup, hwf0, hwftl⟩ := hwf
      by_cases h : k0 = k
      · subst h
        rw [show TreeChildren.get (.cons k0 t0 tl) k0 = some t0 from by
          simp [TreeChildren.get]] at hget
        injection hget with hget
        subst hget
        exact ⟨hfree, hwf0⟩
      · rw [show TreeChildren.get (.cons k0 t0 tl) k = tl.get k from by
          simp [TreeChildren.get, h]] at hget
        exact treeChildrenWF_get tl k t hwftl hget

theorem treeWF_nodeAt (segs : List String) (t sub : TreeNode)
    (hwf : TreeWF t) (h : nodeAt t segs = some sub) : TreeWF sub := by
  induction segs generalizing t with
  | nil => simp [nodeAt] at h; rwa [← h]
  | cons c cs ih =>
      obtain ⟨p, kids⟩ := t
      rw [nodeAt_mk_cons] at h
      cases hget : kids.get c with
      | none => rw [hget] at h; exact absurd h (by simp)
      | some child =>
          rw [hget] at h
          exact ih child (treeChildrenWF_get kids c child hwf hget).2 h

theorem treeWF_nodeAt_slashFree (segs : List String) (t sub : TreeNode)
    (hwf : TreeWF t) (h : nodeAt t segs = some sub) :
    ∀ seg ∈ segs, slashFree seg := by
  induction segs generalizing t with
  | nil => simp
  | cons c cs ih =>
      obtain ⟨p, kids⟩ := t
      rw [nodeAt_mk_cons] at h
      cases hget : kids.get c with
      | none => rw [hget] at h; exact absurd h (by simp)
      | some child =>
          rw [hget] at h
          have hck := treeChildrenWF_get kids c child hwf hget
          intro seg hseg
          rcases List.mem_cons.mp hseg with rfl | hseg
          · exact hck.1
          · exact ih child hck.2 h seg hseg

theorem treeChildrenWF_setChild : ∀ (cs : TreeChildren) (k : String) (n : TreeNode),
    TreeChildrenWF cs → slashFree k → TreeWF n → TreeChildrenWF (cs.setChild k n)
  | .nil, k, n, _, hfree, hwfn => by
      show TreeChildrenWF (.cons k n .nil)
      exact ⟨hfree, rfl, hwfn, trivial⟩
  | .cons k0 t0 tl, k, n, hwf, hfree, hwfn => by
      obtain ⟨hfree0, hnodup, hwf0, hwftl⟩ := hwf
      by_cases h : k0 = k
      · subst h
        rw [show TreeChildren.setChild (.cons k0 t0 tl) k0 n = .cons k0 n tl from by
          simp [TreeChildren.setChild]]
        exact ⟨hfree0, hnodup, hwfn, hwftl⟩
      · rw [show TreeChildren.setChild (.cons k0 t0 tl) k n = .cons k0 t0 (tl.setChild k n) from by
          simp [TreeChildren.setChild, h]]
        refine ⟨hfree0, ?_, hwf0, treeChildrenWF_setChild tl k n hwftl hfree hwfn⟩
        rw [TreeChildren.get_setChild, if_neg (fun hh => h hh.symm), hnodup]

theorem treeWF_markPresentAt (path : List String) (t : TreeNode)
    (hwf : TreeWF t) (hfree : ∀ seg ∈ path, slashFree seg) :
    TreeWF (markPresentAt t path) := by
  induction path generalizing t with
  | nil => obtain ⟨p, cs⟩ := t; exact hwf
  | cons c cs ih =>
      obtain ⟨p, kids⟩ := t
      have hc : slashFree c := hfree c (by simp)
      have hcs : ∀ seg ∈ cs, slashFree seg :=
        fun seg hs => hfree seg (List.mem_cons_of_mem c hs)
      cases hget : kids.get c with
      | some child =>
          have hred : markPresentAt (.mk p kids) (c :: cs) =
              .mk p (kids.setChild c (markPresentAt child cs)) := by
            simp only [markPresentAt, hget]
          rw [hred]
          show TreeChildrenWF (kids.setChild c (markPresentAt child cs))
          exact treeChildrenWF_setChild kids c _ hwf hc
            (ih child (treeChildrenWF_get kids c child hwf hget).2 hcs)
      | none =>
          have hred : markPresentAt (.mk p kids) (c :: cs) =
              .mk p (kids.setChild c (markPresentAt emptyTreeNode cs)) := by
            simp only [markPresentAt, hget]
          rw [hred]
          show TreeChildrenWF (kids.setChild c (markPresentAt emptyTreeNode cs))
          exact treeChildrenWF_setChild kids c _ hwf hc (ih emptyTreeNode treeWF_empty hcs)

mutual
theorem treeWF_clearSubtree : ∀ (t : TreeNode), TreeWF t → TreeWF (clearSubtree t)
  | .mk _ cs, hwf => treeChildrenWF_clearSubtree cs hwf

theorem treeChildrenWF_clearSubtree : ∀ (cs : TreeChildren),
    TreeChildrenWF cs → TreeChildrenWF (clearSubtreeChildren cs)
  | .nil, _ => trivial
  | .cons k t tl, hwf => by
      obtain ⟨hfree, hnodup, hwft, hwftl⟩ := hwf
      refine ⟨hfree, ?_, treeWF_clearSubtree t hwft, treeChildrenWF_clearSubtree tl hwftl⟩
      rw [get_clearSubtreeChildren, hnodup]
      rfl
end

theorem treeWF_replaceSubtreeAt (path : List String) (t new : TreeNode)
    (hwf : TreeWF t) (hwfn : TreeWF new) : TreeWF (replaceSubtreeAt t path new) := by
  induction path generalizing t with
  | nil => obtain ⟨p, cs⟩ := t; exact hwfn
  | cons c cs ih =>
      obtain ⟨p, kids⟩ := t
      cases hget : kids.get c with
      | none => exact (by simpa [replaceSubtreeAt, hget] using hwf)
      | some child =>
          have hck := treeChildrenWF_get kids c child hwf hget
          have hred : replaceSubtreeAt (.mk p kids) (c :: cs) new =
              .mk p (kids.setChild c (replaceSubtreeAt child cs new)) := by
            simp only [replaceSubtreeAt, hget]
          rw [hred]
          show TreeChildrenWF (kids.setChild c (replaceSubtreeAt child cs new))
          exact treeChildrenWF_setChild kids c _ hwf hck.1 (ih child hck.2)

theorem buildLoggerName_append_single (segs : List String) (c : String)
    (h : segs ≠ []) :
    buildLoggerName (segs ++ [c]) = buildLoggerName segs ++ "/" ++ c := by
  induction segs with
  | nil => exact absurd rfl h
  | cons a as ih =>
      cases as with
      | nil => rfl
      | cons b bs =>
          rw [show buildLoggerName ((a :: b :: bs) ++ [c]) =
              a ++ "/" ++ buildLoggerName ((b :: bs) ++ [c]) from rfl,
            ih (List.cons_ne_nil b bs),
            show buildLoggerName (a :: b :: bs) = a ++ "/" ++ buildLoggerName (b :: bs) from rfl]
          simp [String.append_assoc]

theorem extendName_buildLoggerName (rest : List String) (segs : List String)
    (h : segs ≠ []) :
    extendName (buildLoggerName segs) rest = buildLoggerName (segs ++ rest) := by
  induction rest generalizing segs with
  | nil => simp [extendName]
  | cons c cs ih =>
      rw [show extendName (buildLoggerName segs) (c :: cs) =
          extendName (buildLoggerName [buildLoggerName segs, c]) cs from rfl,
        show buildLoggerName [buildLoggerName segs, c] =
          buildLoggerName segs ++ "/" ++ c from rfl,
        ← buildLoggerName_append_single segs c h,
        ih (segs ++ [c]) (by simp)]
      simp

/-- Descending one segment from a node. -/
theorem presentAt_cons (p : Bool) (cs : TreeChildren) (k : String) (rest : List String) :
    presentAt (.mk p cs) (k :: rest) ↔ ∃ t, cs.get k = some t ∧ presentAt t rest := by
  cases h : cs.get k with
  | none => simp [presentAt, nodeAt_mk_cons, h]
  | some t => simp [presentAt, nodeAt_mk_cons, h]

mutual
/-- Characterization of the name list the invalidation traversal
collects: exactly the names of present nodes of the subtree, rebuilt
segment by segment. -/
theorem mem_presentNames : ∀ (t : TreeNode) (name n : String), TreeWF t →
    (n ∈ presentNames name t ↔
      ∃ rest, presentAt t rest ∧ n = extendName name rest)
  | .mk p cs, name, n, hwf => by
      have hch := mem_presentNamesChildren cs name n hwf
      rw [show presentNames name (.mk p cs) =
        (if p then [name] else []) ++ presentNamesChildren name cs from rfl]
      rw [List.mem_append, hch]
      constructor
      · rintro (hhead | ⟨k, t, rest, hget, hpres, hn⟩)
        · refine ⟨[], ?_, ?_⟩
          · cases p with
            | false => simp at hhead
            | true =>
                rw [presentAt_nil]
                rfl
          · cases p with
            | false => simp at hhead
            | true => simpa [extendName] using (by simpa using hhead : n = name)
        · exact ⟨k :: rest, (presentAt_cons p cs k rest).mpr ⟨t, hget, hpres⟩, hn⟩
      · rintro ⟨rest, hpres, hn⟩
        cases rest with
        | nil =>
            left
            rw [presentAt_nil] at hpres
            have : p = true := hpres
            subst this
            simp [extendName] at hn
            simp [hn]
        | cons k rest =>
            right
            rcases (presentAt_cons p cs k rest).mp hpres with ⟨t, hget, hp⟩
            exact ⟨k, t, rest, hget, hp, hn⟩

theorem mem_presentNamesChildren : ∀ (cs : TreeChildren) (name n : String),
    TreeChildrenWF cs →
    (n ∈ presentNamesChildren name cs ↔
      ∃ k t rest, cs.get k = some t ∧ presentAt t rest ∧
        n = extendName (buildLoggerName [name, k]) rest)
  | .nil, name, n, _ => by
      simp [presentNamesChildren, TreeChildren.get]
  | .cons k0 t0 tl, name, n, hwf => by
      obtain ⟨hfree, hnodup, hwf0, hwftl⟩ := hwf
      have hhd := mem_presentNames t0 (buildLoggerName [name, k0]) n hwf0
      have htl := mem_presentNamesChildren tl name n hwftl
      rw [show presentNamesChildren name (.cons k0 t0 tl) =
        presentNames (buildLoggerName [name, k0]) t0 ++ presentNamesChildren name tl from rfl]
      rw [List.mem_append, hhd, htl]
      constructor
      · rintro (⟨rest, hpres, hn⟩ | ⟨k, t, rest, hget, hpres, hn⟩)
        · refine ⟨k0, t0, rest, ?_, hpres, hn⟩
          simp [TreeChildren.get]
        · refine ⟨k, t, rest, ?_, hpres, hn⟩
          have hkk : ¬ k0 = k := by
            intro hkk
            subst hkk
            rw [hnodup] at hget
            exact absurd hget (by simp)
          simp [TreeChildren.get, hkk]
          exact hget
      · rintro ⟨k, t, rest, hget, hpres, hn⟩
        by_cases hkk : k0 = k
        · subst hkk
          rw [show TreeChildren.get (.cons k0 t0 tl) k0 = some t0 from by
            simp [TreeChildren.get]] at hget
          injection hget with hget
          subst hget
          exact Or.inl ⟨rest, hpres, hn⟩
        · rw [show TreeChildren.get (.cons k0 t0 tl) k = tl.get k from by
            simp [TreeChildren.get, hkk]] at hget
          exact Or.inr ⟨k, t, rest, hget, hpres, hn⟩
end

theorem coherent_of_empty (s : EngineState)
    (hmap : s.implementationMap = []) (htree : s.knownImplementations = emptyTreeNode) :
    Coherent s := by
  constructor
  · intro name
    rw [hmap, htree]
    simp [lookupEntry]
    exact fun h => absurd h (presentAt_empty _)
  · rw [htree]
    exact treeWF_empty

theorem coherent_initialState : Coherent initialState :=
  coherent_of_empty initialState rfl rfl

/-- Splitting decomposes over the extension of a name by tree segments. -/
theorem splitLoggerName_extend (P : String) (rest : List String)
    (hrest : ∀ seg ∈ rest, slashFree seg) :
    splitLoggerName (extendName P rest) = splitLoggerName P ++ rest := by
  have h1 : extendName P rest = buildLoggerName (splitLoggerName P ++ rest) := by
    conv_lhs => rw [← buildLoggerName_splitLoggerName P]
    exact extendName_buildLoggerName rest (splitLoggerName P) (splitLoggerName_ne_nil P)
  rw [h1]
  refine splitLoggerName_buildLoggerName _ ?_ ?_
  · intro h
    exact splitLoggerName_ne_nil P (List.append_eq_nil.mp h).1
  · intro seg hs
    rcases List.mem_append.mp hs with hs | hs
    · exact splitLoggerName_slashFree P seg hs
    · exact hrest seg hs

/-- Membership in the deleted-name list of the invalidation traversal,
stated over whole names: exactly the cached names extending the start
name (under coherence). -/
theorem mem_presentNames_iff (s : EngineState) (P : String) (sub : TreeNode)
    (hc : Coherent s)
    (hnode : nodeAt s.knownImplementations (splitLoggerName P) = some sub)
    (n : String) :
    n ∈ presentNames P sub ↔
      (splitLoggerName P <+: splitLoggerName n ∧
        (lookupEntry s.implementationMap n).isSome = true) := by
  have hwfsub : TreeWF sub := treeWF_nodeAt _ _ _ hc.tree_wf hnode
  rw [mem_presentNames sub P n hwfsub]
  constructor
  · rintro ⟨rest, ⟨node, hrest, hpresent⟩, hn⟩
    have hfree : ∀ seg ∈ rest, slashFree seg :=
      treeWF_nodeAt_slashFree rest sub node hwfsub hrest
    have hsplit : splitLoggerName n = splitLoggerName P ++ rest := by
      rw [hn]
      exact splitLoggerName_extend P rest hfree
    constructor
    · rw [hsplit]; exact ⟨rest, rfl⟩
    · rw [hc.cache_tree, hsplit]
      refine ⟨node, ?_, hpresent⟩
      rw [nodeAt_append, hnode]
      exact hrest
  · rintro ⟨⟨rest, hrest⟩, hsome⟩
    rw [hc.cache_tree] at hsome
    obtain ⟨node, hnodeN, hpresent⟩ := hsome
    rw [← hrest, nodeAt_append, hnode] at hnodeN
    refine ⟨rest, ⟨node, hnodeN, hpresent⟩, ?_⟩
    have hfree : ∀ seg ∈ rest, slashFree seg := by
      intro seg hs
      refine splitLoggerName_slashFree n seg ?_
      rw [← hrest]
      exact List.mem_append.mpr (Or.inr hs)
    rw [show extendName P rest = buildLoggerName (splitLoggerName P ++ rest) from by
      conv_lhs => rw [← buildLoggerName_splitLoggerName P]
      exact extendName_buildLoggerName rest (splitLoggerName P) (splitLoggerName_ne_nil P)]
    rw [hrest, buildLoggerName_splitLoggerName]

/-- A name below a missing tree path is never cached (under coherence). -/
theorem lookup_none_of_nodeAt_none (s : EngineState) (P n : String)
    (hc : Coherent s)
    (hnode : nodeAt s.knownImplementations (splitLoggerName P) = none)
    (hpre : splitLoggerName P <+: splitLoggerName n) :
    lookupEntry s.implementationMap n = none := by
  cases hl : lookupEntry s.implementationMap n with
  | none => rfl
  | some impl =>
      exfalso
      have hsome : (lookupEntry s.implementationMap n).isSome = true := by
        rw [hl]; rfl
      rw [hc.cache_tree] at hsome
      obtain ⟨node, hnodeN, _⟩ := hsome
      obtain ⟨rest, hrest⟩ := hpre
      rw [← hrest, nodeAt_append, hnode] at hnodeN
      exact absurd hnodeN (by simp)

/-- Invalidation exactness on the cache: clearing a name removes from
the implementation map exactly the names that extend it segment-wise,
and nothing else. -/
theorem clearImplementations_lookup (s : EngineState) (P : String)
    (hc : Coherent s) (n : String) :
    lookupEntry (clearImplementations s P).implementationMap n =
      if splitLoggerName P <+: splitLoggerName n then none
      else lookupEntry s.implementationMap n := by
  unfold clearImplementations
  cases hnode : nodeAt s.knownImplementations (splitLoggerName P) with
  | none =>
      by_cases hpre : splitLoggerName P <+: splitLoggerName n
      · rw [if_pos hpre]
        exact lookup_none_of_nodeAt_none s P n hc hnode hpre
      · rw [if_neg hpre]
  | some sub =>
      show lookupEntry (removeNames s.implementationMap (presentNames P sub)) n = _
      rw [lookupEntry_removeNames]
      by_cases hmem : n ∈ presentNames P sub
      · have hprop := (mem_presentNames_iff s P sub hc hnode n).mp hmem
        rw [if_pos (by simpa using hmem), if_pos hprop.1]
      · rw [if_neg (by simpa using hmem)]
        by_cases hpre : splitLoggerName P <+: splitLoggerName n
        · rw [if_pos hpre]
          cases hl : lookupEntry s.implementationMap n with
          | none => rfl
          | some impl =>
              exfalso
              exact hmem ((mem_presentNames_iff s P sub hc hnode n).mpr
                ⟨hpre, by rw [hl]; rfl⟩)
        · rw [if_neg hpre]

/-- Invalidation exactness on the tree: the cleared state has a present
node exactly at the surviving paths. -/
theorem clearImplementations_presentAt (s : EngineState) (P : String)
    (_hc : Coherent s) (q : List String) :
    presentAt (clearImplementations s P).knownImplementations q ↔
      (¬ splitLoggerName P <+: q ∧ presentAt s.knownImplementations q) := by
  unfold clearImplementations
  cases hnode : nodeAt s.knownImplementations (splitLoggerName P) with
  | none =>
      show presentAt s.knownImplementations q ↔ _
      constructor
      · intro hp
        refine ⟨?_, hp⟩
        rintro ⟨rest, hrest⟩
        obtain ⟨node, hnodeN, _⟩ := hp
        rw [← hrest, nodeAt_append, hnode] at hnodeN
        exact absurd hnodeN (by simp)
      · exact fun h => h.2
  | some sub =>
      show presentAt (replaceSubtreeAt s.knownImplementations (splitLoggerName P)
        (clearSubtree sub)) q ↔ _
      rw [presentAt_replaceSubtreeAt (splitLoggerName P) _ sub _ hnode q]
      by_cases hpre : splitLoggerName P <+: q
      · rw [if_pos ((List.isPrefixOf_iff_prefix).mpr hpre)]
        constructor
        · intro h
          exact absurd h (not_presentAt_clearSubtree _ _)
        · rintro ⟨hnp, _⟩
          exact absurd hpre hnp
      · rw [if_neg (by
          intro h
          exact hpre ((List.isPrefixOf_iff_prefix).mp h))]
        constructor
        · exact fun h => ⟨hpre, h⟩
        · exact fun h => h.2

theorem clearImplementations_treeWF (s : EngineState) (P : String)
    (hc : Coherent s) : TreeWF (clearImplementations s P).knownImplementations := by
  unfold clearImplementations
  cases hnode : nodeAt s.knownImplementations (splitLoggerName P) with
  | none => exact hc.tree_wf
  | some sub =>
      exact treeWF_replaceSubtreeAt _ _ _ hc.tree_wf
        (treeWF_clearSubtree sub (treeWF_nodeAt _ _ _ hc.tree_wf hnode))

theorem coherent_clearImplementations (s : EngineState) (P : String)
    (hc : Coherent s) : Coherent (clearImplementations s P) := by
  constructor
  · intro name
    rw [clearImplementations_lookup s P hc name,
      clearImplementations_presentAt s P hc (splitLoggerName name)]
    by_cases hpre : splitLoggerName P <+: splitLoggerName name
    · rw [if_pos hpre]
      simp [hpre]
    · rw [if_neg hpre]
      rw [hc.cache_tree name]
      simp [hpre]
  · exact clearImplementations_treeWF s P hc

theorem coherent_getImplementation (s : EngineState) (loggerName : String)
    (impl : Impl) (s2 : EngineState) (hc : Coherent s)
    (h : getImplementation s loggerName = .ok (impl, s2)) : Coherent s2 := by
  unfold getImplementation at h
  cases hl : lookupEntry s.implementationMap loggerName with
  | some cached =>
      rw [hl] at h
      injection h with h
      injection h with h1 h2
      rw [← h2]
      exact hc
  | none =>
      rw [hl] at h
      cases hb : buildImplementation s loggerName with
      | error e => rw [hb] at h; exact absurd h (by simp)
      | ok newImplementation =>
          rw [hb] at h
          injection h with h
          injection h with h1 h2
          rw [← h2]
          constructor
          · intro name
            show (lookupEntry (setEntry s.implementationMap loggerName newImplementation)
              name).isSome = true ↔
                presentAt (markPresentAt s.knownImplementations
                  (splitLoggerName loggerName)) (splitLoggerName name)
            rw [isSome_lookupEntry_setEntry,
              presentAt_markPresentAt (splitLoggerName loggerName)
                s.knownImplementations (splitLoggerName name)]
            constructor
            · intro hor
              rcases Bool.or_eq_true_iff.mp hor with heq | hsome
              · left
                rw [of_decide_eq_true heq]
              · right
                exact (hc.cache_tree name).mp hsome
            · rintro (heq | hp)
              · apply Bool.or_eq_true_iff.mpr
                left
                exact decide_eq_true (splitLoggerName_injective heq).symm
              · apply Bool.or_eq_true_iff.mpr
                right
                exact (hc.cache_tree name).mpr hp
          · show TreeWF (markPresentAt s.knownImplementations (splitLoggerName loggerName))
            exact treeWF_markPresentAt _ _ hc.tree_wf (splitLoggerName_slashFree loggerName)

theorem coherent_setConfiguratorWithLock (key : Option Nat) (loggerName : String)
    (configurator : Option Configurator) (s : EngineState) (hc : Coherent s) :
    Coherent (setConfiguratorWithLock key loggerName configurator s) := by
  unfold setConfiguratorWithLock
  by_cases hk : isKey key s.currentKey
  · rw [if_pos hk]
    apply coherent_clearImplementations
    exact ⟨hc.cache_tree, hc.tree_wf⟩
  · rw [if_neg hk]
    exact hc

theorem coherent_setRootConfiguratorWithLock (key : Option Nat)
    (configurator : Option Configurator) (s : EngineState) (hc : Coherent s) :
    Coherent (setRootConfiguratorWithLock key configurator s) := by
  unfold setRootConfiguratorWithLock
  by_cases hk : isKey key s.currentKey
  · rw [if_pos hk]
    exact coherent_of_empty _ rfl rfl
  · rw [if_neg hk]
    exact hc

theorem coherent_resetConfigWithLock (key : Option Nat) (s : EngineState)
    (hc : Coherent s) : Coherent (resetConfigWithLock key s) := by
  unfold resetConfigWithLock
  by_cases hk : isKey key s.currentKey
  · rw [if_pos hk]
    exact coherent_of_empty _ rfl rfl
  · rw [if_neg hk]
    exact hc

theorem coherent_lockOp (s : EngineState) (hc : Coherent s) :
    Coherent (lockOp s).2 := by
  unfold lockOp
  cases s.currentKey <;> exact ⟨hc.cache_tree, hc.tree_wf⟩

theorem coherent_unlockOp (key : Option Nat) (s : EngineState) (hc : Coherent s) :
    Coherent (unlockOp key s) := by
  unfold unlockOp
  by_cases hk : isKey key s.currentKey
  · rw [if_pos hk]
    exact ⟨hc.cache_tree, hc.tree_wf⟩
  · rw [if_neg hk]
    exact hc

/-- Every reachable engine state satisfies the coherence invariant. -/
theorem coherent_of_reachable (s : EngineState) (h : Reachable s) : Coherent s := by
  induction h with
  | init => exact coherent_initialState
  | getImplStep hr hop ih => exact coherent_getImplementation _ _ _ _ ih hop
  | setConfiguratorStep key loggerName configurator hr ih =>
      exact coherent_setConfiguratorWithLock key loggerName configurator _ ih
  | setRootStep key configurator hr ih =>
      exact coherent_setRootConfiguratorWithLock key configurator _ ih
  | resetStep key hr ih => exact coherent_resetConfigWithLock key _ ih
  | lockStep hr ih => exact coherent_lockOp _ ih
  | unlockStep key hr ih => exact coherent_unlockOp key _ ih

/-! ## Supporting lemmas and concrete scenarios for the claims -/

theorem JSFields.get_set : ∀ (fs : JSFields) (k q : String) (v : JSVal),
    (fs.set k v).get q = if k = q then some v else fs.get q
  | .nil, k, q, v => by
      by_cases h : k = q <;> simp [JSFields.set, JSFields.get, h]
  | .cons k0 w tl, k, q, v => by
      by_cases h0 : k0 = k
      · subst h0
        by_cases hq : k0 = q <;> simp [JSFields.set, JSFields.get, hq]
      · by_cases hq : k0 = q
        · subst hq
          have hk : ¬ k = k0 := fun h => h0 h.symm
          simp [JSFields.set, JSFields.get, h0, hk]
        · simp [JSFields.set, JSFields.get, h0, hq, JSFields.get_set tl k q v]

/-- Processing a concatenated metadata list processes the first part
and, when that part merged cleanly, continues with the second. -/
theorem buildMetaLoop_append (acc : JSFields) (xs ys : List JSVal) :
    buildMetaLoop acc (xs ++ ys) =
      match buildMetaLoop acc xs with
      | (acc2, none) => buildMetaLoop acc2 ys
      | (acc2, some e) => (acc2, some e) := by
  induction xs generalizing acc with
  | nil => simp [buildMetaLoop]
  | cons m ms ih =>
      rw [List.cons_append]
      show (match buildMetaStep acc m with
            | .ok next => buildMetaLoop next (ms ++ ys)
            | .error e => (acc, some e)) = _
      cases hs : buildMetaStep acc m with
      | ok next => simp [buildMetaLoop, hs, ih next]
      | error e => simp [buildMetaLoop, hs]

/-- The engine-state fields clearImplementations does not touch. -/
theorem clearImplementations_fields (s : EngineState) (n : String) :
    (clearImplementations s n).configurators = s.configurators ∧
    (clearImplementations s n).rootConfigurator = s.rootConfigurator ∧
    (clearImplementations s n).currentKey = s.currentKey ∧
    (clearImplementations s n).nextKeyId = s.nextKeyId := by
  unfold clearImplementations
  cases nodeAt s.knownImplementations (splitLoggerName n) <;> exact ⟨rfl, rfl, rfl, rfl⟩

/-- The auto-enable assignment cannot execute on the path fold while the
configuration keeps its own enabled field. -/
theorem loadConfigsLoop_no_fire (s : EngineState) (paths : List String)
    (hall : ∀ nm c, lookupEntry s.configurators nm = some (some c) →
      preservesEnabledField c) :
    ∀ config : Config, cfgHasOwn config "enabled" = true →
      ∀ cfg fired, loadConfigsLoop s config false paths = .ok (cfg, fired) →
        fired = false := by
  induction paths with
  | nil =>
      intro config hown cfg fired h
      rw [show loadConfigsLoop s config false [] = .ok (config, false) from rfl] at h
      injection h with h
      injection h with h1 h2
      exact h2.symm
  | cons path rest ih =>
      intro config hown cfg fired h
      rw [show loadConfigsLoop s config false (path :: rest) =
        match lookupEntry s.configurators path with
        | some (some configurator) =>
            let step :=
              if ¬ cfgHasOwn config "enabled" then
                (setEntry config "enabled" (.jsv (.vBool true)), true)
              else (config, false)
            match configurator step.1 with
            | .ok next => loadConfigsLoop s next step.2 rest
            | .error e => .error e
        | _ => loadConfigsLoop s config false rest from rfl] at h
      cases hl : lookupEntry s.configurators path with
      | none =>
          rw [hl] at h
          exact ih config hown cfg fired h
      | some oc =>
          cases oc with
          | none =>
              rw [hl] at h
              exact ih config hown cfg fired h
          | some configurator =>
              rw [hl] at h
              simp only [hown, not_true_eq_false, if_false] at h
              cases hc : configurator config with
              | error e => rw [hc] at h; exact absurd h (by simp)
              | ok next =>
                  rw [hc] at h
                  exact ih next (hall path configurator hl config next hown hc) cfg fired h

/-! ## The claims -/

/-- C1: the specification states that with an empty middleware list the
middleware dispatch produces exactly the single invocation of the
logger's own name carrying the call's entry.  The final applyMiddleware
has no base case for the empty list: it destructures the empty list,
invokes the undefined head, catches the resulting TypeError, and
produces exactly one quarantine invocation directed at the external
error logger, carrying the middleware-failure message and a metadata
record whose middleware field is undefined.  This theorem records that
behaviour of the code at the failing input: an enabled logger (its
built implementation is active) whose configuration has the empty
middleware list. -/
theorem c1_empty_middleware_is_quarantined (s : EngineState)
    (loggerName message : String) (config : Config) (metas : List JSVal) (now : Int)
    (hbuild : buildImplementation s loggerName = .ok (.active config))
    (hmw : readMiddleware config = []) :
    applyMiddleware now (readMiddleware config) loggerName
        { date := now, message := message, metas := readDecorations config ++ metas } =
      [quarantineInvocation now typeErrorNotAFunction
        { date := now, message := message, metas := readDecorations config ++ metas }
        .vUndefined] ∧
    runImpl loggerName (.active config) now message metas =
      [{ receiver := readReceiver config,
         loggerName := EXTERNAL_ERROR_LOGGER_NAME,
         date := now,
         message := "An error occurred in middleware",
         metas := [.vObj (.cons "error" typeErrorNotAFunction
           (.cons "entry" (entryToVal
             { date := now, message := message, metas := readDecorations config ++ metas })
             (.cons "middleware" JSVal.vUndefined .nil)))] }] ∧
    EXTERNAL_ERROR_LOGGER_NAME = "@loglow/external/errors" := by
  refine ⟨?_, ?_, rfl⟩
  · rw [hmw]
    rfl
  · show (applyMiddleware now (readMiddleware config) loggerName
        { date := now, message := message, metas := readDecorations config ++ metas }).map
      (mkDelivery (readReceiver config)) = _
    rw [hmw]
    rfl

/-- Witness for C1 at a concrete enabled logger with default (empty)
middleware. -/
theorem c1_witness :
    buildImplementation c1State "app" = .ok (.active c1Config) ∧
    readMiddleware c1Config = [] ∧
    runImpl "app" (.active c1Config) 0 "hello" [] =
      [{ receiver := readReceiver c1Config,
         loggerName := EXTERNAL_ERROR_LOGGER_NAME,
         date := 0,
         message := "An error occurred in middleware",
         metas := [.vObj (.cons "error" typeErrorNotAFunction
           (.cons "entry" (entryToVal
             { date := 0, message := "hello", metas := readDecorations c1Config ++ [] })
             (.cons "middleware" JSVal.vUndefined .nil)))] }] :=
  ⟨rfl, rfl,
    (c1_empty_middleware_is_quarantined c1State "app" "hello" c1Config [] 0 rfl rfl).2.1⟩

/-- C2 counterexample: one concrete log call that reaches delivery.  The
delivered receiver argument carries the raw metas list under the metas
key; the argument the claim describes carries the normalized record
under the meta key; the two differ. -/
theorem c2_receiver_arg_counterexample :
    logOp c2State "app" "m" [.vErr "Error" "boom" "trace" .nil] 0 =
      .ok ([c2Delivery], c2StateAfter) ∧
    receiverArg c2Delivery ≠ receiverArgSpec c2Delivery := by
  refine ⟨rfl, ?_⟩
  intro h
  exact absurd (congrArg topKeys h) (by decide)

/-- C2 amended: for every log call that reaches delivery through an
active implementation, the receiver is invoked once per middleware
invocation with the object { loggerName, date, message, metas } built
from that invocation's entry — the raw, un-normalized metas list; the
metadata normalizer is not applied anywhere on the final delivery
path. -/
theorem c2_receiver_gets_raw_metas (s : EngineState) (loggerName message : String)
    (config : Config) (s2 : EngineState) (metas : List JSVal) (now : Int)
    (hget : getImplementation s loggerName = .ok (.active config, s2)) :
    logOp s loggerName message metas now =
      .ok ((applyMiddleware now (readMiddleware config) loggerName
          { date := now, message := message, metas := readDecorations config ++ metas }).map
            (mkDelivery (readReceiver config)), s2) := by
  unfold logOp
  rw [hget]
  rfl

/-- Witness for the amended C2 at the concrete pass-through scenario. -/
theorem c2_witness :
    getImplementation c2State "app" = .ok (.active c2Config, c2StateAfter) ∧
    logOp c2State "app" "m" [.vNum 7] 0 =
      .ok ((applyMiddleware 0 (readMiddleware c2Config) "app"
          { date := 0, message := "m", metas := readDecorations c2Config ++ [.vNum 7] }).map
            (mkDelivery (readReceiver c2Config)), c2StateAfter) :=
  ⟨rfl, c2_receiver_gets_raw_metas c2State "app" "m" c2Config c2StateAfter [.vNum 7] 0 rfl⟩

/-- C3: the claim says logging two error values produces the keys error
and error2.  In buildMeta each raw error is transformed first, and the
transformed record carries the own tag field with value Error, which
findMetaFieldType prefers over every later branch (the instanceof
branch returning the lowercase error name is unreachable for
transformed values).  The two errors therefore merge under the keys
Error and Error2 — contradicting both the claim and the doc comment of
findMetaFieldType itself — while each does hold the normalized form
with name, message and stack. -/
theorem c3_two_errors_merge_under_kind_tag (n1 m1 s1 n2 m2 s2 : String) :
    buildMeta [.vErr n1 m1 s1 .nil, .vErr n2 m2 s2 .nil] =
      .cons "Error" (.vObj (.cons "@kind" (.vStr "Error")
          (.cons "name" (.vStr n1)
            (.cons "message" (.vStr m1) (.cons "stack" (.vStr s1) .nil)))))
        (.cons "Error2" (.vObj (.cons "@kind" (.vStr "Error")
          (.cons "name" (.vStr n2)
            (.cons "message" (.vStr m2) (.cons "stack" (.vStr s2) .nil)))))
          .nil) ∧
    (buildMeta [.vErr n1 m1 s1 .nil, .vErr n2 m2 s2 .nil]).hasKey "error" = false ∧
    (buildMeta [.vErr n1 m1 s1 .nil, .vErr n2 m2 s2 .nil]).hasKey "error2" = false ∧
    (buildMeta [.vErr n1 m1 s1 .nil, .vErr n2 m2 s2 .nil]).hasKey "Error" = true ∧
    (buildMeta [.vErr n1 m1 s1 .nil, .vErr n2 m2 s2 .nil]).hasKey "Error2" = true :=
  ⟨rfl, rfl, rfl, rfl, rfl⟩

/-- C4 counterexample: a null metadata argument between two others.  The
claim says the null resolves to no field name, merging is a no-op, the
null is dropped silently and the remaining arguments are processed
normally.  In the code, field-name resolution calls hasOwnProperty on
the null, which throws a TypeError; buildMeta's containment catches it,
so the argument after the null is never processed (no string field) and
the forensic error fields appear. -/
theorem c4_null_meta_counterexample :
    findMetaFieldType .vNull = .error jsTypeErrorToObject ∧
    buildMeta [.vObj (.cons "a" (.vNum 1) .nil), .vNull, .vStr "x"] =
      addForensics (.cons "a" (.vNum 1) .nil) jsTypeErrorToObject
        [.vObj (.cons "a" (.vNum 1) .nil), .vNull, .vStr "x"] ∧
    (buildMeta [.vObj (.cons "a" (.vNum 1) .nil), .vNull, .vStr "x"]).hasKey "string" = false ∧
    (buildMeta [.vObj (.cons "a" (.vNum 1) .nil), .vNull, .vStr "x"]).hasKey
      "error_loggingMetaMiddleware" = true :=
  ⟨rfl, rfl, rfl, rfl⟩

/-- C4 amended: an explicit null metadata argument is not dropped
silently: its field-name resolution throws the TypeError of coercing
null to an object, and buildMeta's failure containment engages — the
fields merged before the null are retained, the normalized TypeError
and the entire original metadata list are embedded, and every argument
after the null is skipped; the call itself still returns normally. -/
theorem c4_null_triggers_failure_containment (metasBefore rest : List JSVal)
    (acc : JSFields) (h : buildMetaLoop .nil metasBefore = (acc, none)) :
    findMetaFieldType .vNull = .error jsTypeErrorToObject ∧
    buildMeta (metasBefore ++ .vNull :: rest) =
      addForensics acc jsTypeErrorToObject (metasBefore ++ .vNull :: rest) := by
  refine ⟨rfl, ?_⟩
  unfold buildMeta
  rw [buildMetaLoop_append, h]
  rfl

/-- Witness for the amended C4. -/
theorem c4_witness :
    buildMetaLoop .nil [JSVal.vObj (.cons "a" (.vNum 1) .nil)] =
      (.cons "a" (.vNum 1) .nil, none) ∧
    buildMeta ([JSVal.vObj (.cons "a" (.vNum 1) .nil)] ++ .vNull :: [.vStr "x"]) =
      addForensics (.cons "a" (.vNum 1) .nil) jsTypeErrorToObject
        ([JSVal.vObj (.cons "a" (.vNum 1) .nil)] ++ .vNull :: [.vStr "x"]) :=
  ⟨rfl, (c4_null_triggers_failure_containment [JSVal.vObj (.cons "a" (.vNum 1) .nil)]
    [.vStr "x"] (.cons "a" (.vNum 1) .nil) rfl).2⟩

/-- C5: failure containment of buildMeta.  When the elements before a
bad one merge cleanly and transforming-or-merging the bad one throws,
the result is the accumulator reached so far with the two forensic
fields set: every earlier-merged field other than the two forensic
names is retained, the normalized failing error sits under
error_loggingMetaMiddleware, the entire original argument list
(later elements included) under
error_loggingMetaMiddleware_originalMetas, and buildMeta returns
normally — elements after the bad one are never processed. -/
theorem c5_metadata_failure_containment (metasBefore rest : List JSVal)
    (bad : JSVal) (acc : JSFields) (e : JSVal)
    (hok : buildMetaLoop .nil metasBefore = (acc, none))
    (hbad : buildMetaStep acc bad = .error e) :
    buildMeta (metasBefore ++ bad :: rest) =
      addForensics acc e (metasBefore ++ bad :: rest) ∧
    (∀ k, k ≠ "error_loggingMetaMiddleware" →
      k ≠ "error_loggingMetaMiddleware_originalMetas" →
      (buildMeta (metasBefore ++ bad :: rest)).get k = acc.get k) ∧
    (buildMeta (metasBefore ++ bad :: rest)).get "error_loggingMetaMiddleware" =
      some (.vObj (makeErrorUseful e)) ∧
    (buildMeta (metasBefore ++ bad :: rest)).get
      "error_loggingMetaMiddleware_originalMetas" =
      some (.vArr (JSList.ofList (metasBefore ++ bad :: rest))) := by
  have hmain : buildMeta (metasBefore ++ bad :: rest) =
      addForensics acc e (metasBefore ++ bad :: rest) := by
    unfold buildMeta
    rw [buildMetaLoop_append, hok]
    show (match buildMetaLoop acc (bad :: rest) with
          | (combined, none) => combined
          | (combined, some e2) => addForensics combined e2 (metasBefore ++ bad :: rest)) = _
    rw [show buildMetaLoop acc (bad :: rest) =
      match buildMetaStep acc bad with
      | .ok next => buildMetaLoop next rest
      | .error e2 => (acc, some e2) from rfl, hbad]
  refine ⟨hmain, ?_, ?_, ?_⟩
  · intro k hk1 hk2
    rw [hmain]
    unfold addForensics
    rw [JSFields.get_set, if_neg (fun hh => hk2 hh.symm),
      JSFields.get_set, if_neg (fun hh => hk1 hh.symm)]
  · rw [hmain]
    unfold addForensics
    rw [JSFields.get_set, if_neg (by decide), JSFields.get_set, if_pos rfl]
  · rw [hmain]
    unfold addForensics
    rw [JSFields.get_set, if_pos rfl]

/-- Witness for C5: a string merged first, then a throwing null, with
nothing after. -/
theorem c5_witness :
    buildMetaLoop .nil [JSVal.vStr "hello"] = (.cons "string" (.vStr "hello") .nil, none) ∧
    buildMetaStep (.cons "string" (.vStr "hello") .nil) .vNull = .error jsTypeErrorToObject ∧
    (buildMeta ([JSVal.vStr "hello"] ++ .vNull :: [])).get "error_loggingMetaMiddleware" =
      some (.vObj (makeErrorUseful jsTypeErrorToObject)) :=
  ⟨rfl, rfl,
    (c5_metadata_failure_containment [JSVal.vStr "hello"] [] .vNull
      (.cons "string" (.vStr "hello") .nil) jsTypeErrorToObject rfl rfl).2.2.1⟩

/-! Effect and no-op shapes of the guarded mutations. -/

theorem setConfiguratorWithLock_noop (key : Option Nat) (loggerName : String)
    (c : Option Configurator) (s : EngineState)
    (hkey : isKey key s.currentKey = false) :
    setConfiguratorWithLock key loggerName c s = s := by
  unfold setConfiguratorWithLock
  rw [hkey]
  rfl

theorem setRootConfiguratorWithLock_noop (key : Option Nat)
    (c : Option Configurator) (s : EngineState)
    (hkey : isKey key s.currentKey = false) :
    setRootConfiguratorWithLock key c s = s := by
  unfold setRootConfiguratorWithLock
  rw [hkey]
  rfl

theorem resetConfigWithLock_noop (key : Option Nat) (s : EngineState)
    (hkey : isKey key s.currentKey = false) : resetConfigWithLock key s = s := by
  unfold resetConfigWithLock
  rw [hkey]
  rfl

theorem setConfiguratorWithLock_effect (key : Option Nat) (loggerName : String)
    (c : Option Configurator) (s : EngineState)
    (hkey : isKey key s.currentKey = true) :
    lookupEntry (setConfiguratorWithLock key loggerName c s).configurators loggerName =
      some (wrapConfigurator c) := by
  unfold setConfiguratorWithLock
  rw [if_pos hkey, (clearImplementations_fields _ loggerName).1]
  show lookupEntry (setEntry s.configurators loggerName (wrapConfigurator c)) loggerName = _
  rw [lookupEntry_setEntry, if_pos rfl]

theorem setRootConfiguratorWithLock_effect (key : Option Nat)
    (c : Option Configurator) (s : EngineState)
    (hkey : isKey key s.currentKey = true) :
    (setRootConfiguratorWithLock key c s).rootConfigurator = wrapConfigurator c := by
  unfold setRootConfiguratorWithLock
  rw [if_pos hkey]
  rfl

theorem resetConfigWithLock_effect (key : Option Nat) (s : EngineState)
    (hkey : isKey key s.currentKey = true) :
    (resetConfigWithLock key s).configurators = [] ∧
    (resetConfigWithLock key s).rootConfigurator = DEFAULT_ROOT_CONFIGURATOR := by
  unfold resetConfigWithLock
  rw [if_pos hkey]
  exact ⟨rfl, rfl⟩

theorem unlockOp_unlocks (key : Option Nat) (s : EngineState)
    (hkey : isKey key s.currentKey = true) :
    unlockOp key s = { s with currentKey := none } := by
  unfold unlockOp
  rw [if_pos hkey]

/-- C6: a log call on an enabled logger whose sole configured middleware
throws produces exactly one delivery, directed at the fixed logger name
of the external error channel, carrying the fixed middleware-failure
message and one metadata record with the thrown value, the entry the
middleware was given, and the middleware function itself; the log
operation returns normally, so the thrown exception never reaches the
caller of the log call. -/
theorem c6_middleware_failure_quarantine (s : EngineState)
    (loggerName message : String) (config : Config) (mw : Mw)
    (metas : List JSVal) (now : Int) (e : JSVal) (s2 : EngineState)
    (hget : getImplementation s loggerName = .ok (.active config, s2))
    (hmw : readMiddleware config = [mw])
    (hthrow : mw.run loggerName
      { date := now, message := message, metas := readDecorations config ++ metas } =
        .error e) :
    logOp s loggerName message metas now =
      .ok ([{ receiver := readReceiver config,
              loggerName := EXTERNAL_ERROR_LOGGER_NAME,
              date := now,
              message := "An error occurred in middleware",
              metas := [.vObj (.cons "error" e
                (.cons "entry" (entryToVal
                  { date := now, message := message,
                    metas := readDecorations config ++ metas })
                  (.cons "middleware" (.vFun mw.id) .nil)))] }], s2) ∧
    EXTERNAL_ERROR_LOGGER_NAME = "@loglow/external/errors" := by
  refine ⟨?_, rfl⟩
  unfold logOp
  rw [hget]
  show Except.ok ((applyMiddleware now (readMiddleware config) loggerName
      { date := now, message := message, metas := readDecorations config ++ metas }).map
    (mkDelivery (readReceiver config)), s2) = _
  rw [hmw]
  have happ : applyMiddleware now [mw] loggerName
      { date := now, message := message, metas := readDecorations config ++ metas } =
      [quarantineInvocation now e
        { date := now, message := message, metas := readDecorations config ++ metas }
        (.vFun mw.id)] := by
    simp only [applyMiddleware, hthrow]
  rw [happ]
  rfl

/-- Witness for C6 with a concrete throwing middleware. -/
theorem c6_witness :
    getImplementation c6State "app" = .ok (.active c6Config, c6StateAfter) ∧
    readMiddleware c6Config = [throwMw] ∧
    logOp c6State "app" "m" [] 0 =
      .ok ([{ receiver := readReceiver c6Config,
              loggerName := EXTERNAL_ERROR_LOGGER_NAME,
              date := 0,
              message := "An error occurred in middleware",
              metas := [.vObj (.cons "error" (.vStr "boom")
                (.cons "entry" (entryToVal
                  { date := 0, message := "m", metas := readDecorations c6Config ++ [] })
                  (.cons "middleware" (.vFun throwMw.id) .nil)))] }], c6StateAfter) :=
  ⟨rfl, rfl,
    (c6_middleware_failure_quarantine c6State "app" "m" c6Config throwMw [] 0
      (.vStr "boom") c6StateAfter rfl rfl rfl).1⟩

/-- C7: the lock discipline.  A key is authorized exactly when it equals
the outstanding key or none is outstanding; from an unlocked state, lock
returns a fresh key, a second lock acquires nothing, every configuration
mutation made with no key or with a different key is a silent no-op
while the same mutations made with the acquired key take effect, and
after the key is released mutations made with no key take effect
again. -/
theorem c7_lock_discipline (s : EngineState) (hunlocked : s.currentKey = none) :
    (∀ key cur : Option Nat, isKey key cur = true ↔ (key = cur ∨ cur = none)) ∧
    ∃ k : Nat, ∃ s1 : EngineState,
      lockOp s = (some k, s1) ∧
      s1.currentKey = some k ∧
      (lockOp s1).1 = none ∧
      (∀ loggerName c, setConfiguratorWithLock none loggerName c s1 = s1) ∧
      (∀ j loggerName c, j ≠ k → setConfiguratorWithLock (some j) loggerName c s1 = s1) ∧
      (∀ c, setRootConfiguratorWithLock none c s1 = s1) ∧
      (∀ j c, j ≠ k → setRootConfiguratorWithLock (some j) c s1 = s1) ∧
      resetConfigWithLock none s1 = s1 ∧
      (∀ j, j ≠ k → resetConfigWithLock (some j) s1 = s1) ∧
      (∀ loggerName c,
        lookupEntry (setConfiguratorWithLock (some k) loggerName c s1).configurators
          loggerName = some (wrapConfigurator c)) ∧
      (∀ c, (setRootConfiguratorWithLock (some k) c s1).rootConfigurator =
        wrapConfigurator c) ∧
      (resetConfigWithLock (some k) s1).configurators = [] ∧
      (unlockOp (some k) s1).currentKey = none ∧
      (∀ loggerName c,
        lookupEntry (setConfiguratorWithLock none loggerName c
          (unlockOp (some k) s1)).configurators loggerName =
            some (wrapConfigurator c)) := by
  have hself : ∀ k : Nat, isKey (some k) (some k) = true := by
    intro k
    simp [isKey]
  have hstale : ∀ j k : Nat, j ≠ k → isKey (some j) (some k) = false := by
    intro j k hj
    simp [isKey, hj]
  constructor
  · intro key cur
    simp [isKey]
  refine ⟨s.nextKeyId,
    { s with currentKey := some s.nextKeyId, nextKeyId := s.nextKeyId + 1 },
    by simp [lockOp, hunlocked], rfl, by simp [lockOp],
    ?_, ?_, ?_, ?_, ?_, ?_, ?_, ?_, ?_, ?_, ?_⟩
  · intro loggerName c
    exact setConfiguratorWithLock_noop none loggerName c _ rfl
  · intro j loggerName c hj
    exact setConfiguratorWithLock_noop (some j) loggerName c _ (hstale j _ hj)
  · intro c
    exact setRootConfiguratorWithLock_noop none c _ rfl
  · intro j c hj
    exact setRootConfiguratorWithLock_noop (some j) c _ (hstale j _ hj)
  · exact resetConfigWithLock_noop none _ rfl
  · intro j hj
    exact resetConfigWithLock_noop (some j) _ (hstale j _ hj)
  · intro loggerName c
    exact setConfiguratorWithLock_effect (some s.nextKeyId) loggerName c _
      (hself s.nextKeyId)
  · intro c
    exact setRootConfiguratorWithLock_effect (some s.nextKeyId) c _ (hself s.nextKeyId)
  · exact (resetConfigWithLock_effect (some s.nextKeyId) _ (hself s.nextKeyId)).1
  · rw [unlockOp_unlocks (some s.nextKeyId) _ (hself s.nextKeyId)]
  · intro loggerName c
    rw [unlockOp_unlocks (some s.nextKeyId) _ (hself s.nextKeyId)]
    exact setConfiguratorWithLock_effect none loggerName c _ rfl

/-- Witness for C7 from the initial (unlocked) state. -/
theorem c7_witness :
    initialState.currentKey = none ∧
    (∀ key cur : Option Nat, isKey key cur = true ↔ (key = cur ∨ cur = none)) :=
  ⟨rfl, (c7_lock_discipline initialState rfl).1⟩

/-- C8: invalidation exactness.  On any reachable state, an authorized
registration of a configurator at a path evicts from the implementation
cache exactly the entries whose names extend the path segment-wise (the
path itself included) and no other entry; the path maps to the newly
wrapped configurator; and resolving any affected name afterwards builds
its implementation from the updated registry rather than returning a
stale cached one. -/
theorem c8_invalidation_exactness (s : EngineState) (key : Option Nat)
    (P : String) (c : Option Configurator) (hr : Reachable s)
    (hauth : isKey key s.currentKey = true) :
    (∀ n, lookupEntry (setConfiguratorWithLock key P c s).implementationMap n =
      if splitLoggerName P <+: splitLoggerName n then none
      else lookupEntry s.implementationMap n) ∧
    lookupEntry (setConfiguratorWithLock key P c s).configurators P =
      some (wrapConfigurator c) ∧
    (∀ n, splitLoggerName P <+: splitLoggerName n →
      ∀ impl s3, getImplementation (setConfiguratorWithLock key P c s) n = .ok (impl, s3) →
        buildImplementation (setConfiguratorWithLock key P c s) n = .ok impl) := by
  have hc : Coherent s := coherent_of_reachable s hr
  have hs1 : Coherent
      { s with configurators := setEntry s.configurators P (wrapConfigurator c) } :=
    ⟨hc.cache_tree, hc.tree_wf⟩
  have heq : setConfiguratorWithLock key P c s =
      clearImplementations
        { s with configurators := setEntry s.configurators P (wrapConfigurator c) } P := by
    unfold setConfiguratorWithLock
    rw [if_pos hauth]
  refine ⟨?_, ?_, ?_⟩
  · intro n
    rw [heq, clearImplementations_lookup _ P hs1 n]
  · exact setConfiguratorWithLock_effect key P c s hauth
  · intro n hpre impl s3 hget
    have hnone : lookupEntry (setConfiguratorWithLock key P c s).implementationMap n =
        none := by
      rw [heq, clearImplementations_lookup _ P hs1 n, if_pos hpre]
    unfold getImplementation at hget
    rw [hnone] at hget
    cases hb : buildImplementation (setConfiguratorWithLock key P c s) n with
    | error e => rw [hb] at hget; exact absurd hget (by simp)
    | ok impl2 =>
        rw [hb] at hget
        injection hget with hget
        injection hget with h1 h2
        rw [h1]

/-- Witness for C8: on the initial state, registering at a evicts the
(empty) cache entry for a slash b. -/
theorem c8_witness :
    lookupEntry (setConfiguratorWithLock none "a" none initialState).implementationMap
      "a/b" =
      (if splitLoggerName "a" <+: splitLoggerName "a/b" then none
       else lookupEntry initialState.implementationMap "a/b") :=
  (c8_invalidation_exactness initialState none "a" none Reachable.init rfl).1 "a/b"

/-- C9 counterexample: with a configurator registered at a that deletes
the enabled field (propertyDeleter) and an identity configurator at
a slash b, resolving a slash b makes the auto-enable branch fire (the
instrumentation flag is true) and yields a configuration with enabled
true even though no configurator ever set enabled. -/
theorem c9_auto_enable_counterexample :
    loadMultipleConfigs c9State (getConfigPaths "a/b") = .ok (c9ResolvedConfig, true) ∧
    lookupEntry c9ResolvedConfig "enabled" = some (.jsv (.vBool true)) :=
  ⟨rfl, rfl⟩

/-- C9 amended: the auto-enable branch can never fire as long as every
registered configurator (root included) preserves the own enabled field
of the configuration it transforms.  The unrestricted claim fails
because a configurator may delete the field, as propertyDeleter does. -/
theorem c9_no_auto_enable_when_field_preserved (s : EngineState) (loggerName : String)
    (hroot : ∀ rc, s.rootConfigurator = some rc → preservesEnabledField rc)
    (hall : ∀ nm c, lookupEntry s.configurators nm = some (some c) →
      preservesEnabledField c) :
    ∀ cfg fired, loadMultipleConfigs s (getConfigPaths loggerName) = .ok (cfg, fired) →
      fired = false := by
  intro cfg fired h
  unfold loadMultipleConfigs at h
  cases hrc : s.rootConfigurator with
  | none =>
      rw [hrc] at h
      exact loadConfigsLoop_no_fire s _ hall defaultConfig rfl cfg fired h
  | some rc =>
      rw [hrc] at h
      have h2 : (match rc defaultConfig with
          | Except.ok config => loadConfigsLoop s config false (getConfigPaths loggerName)
          | Except.error e => Except.error e) = Except.ok (cfg, fired) := h
      cases hr0 : rc defaultConfig with
      | error e =>
          rw [hr0] at h2
          exact absurd h2 (by simp)
      | ok config0 =>
          rw [hr0] at h2
          exact loadConfigsLoop_no_fire s _ hall config0
            (hroot rc hrc defaultConfig config0 rfl hr0) cfg fired h2

/-- Witness for the amended C9 on the initial state. -/
theorem c9_witness :
    loadMultipleConfigs initialState (getConfigPaths "a") = .ok (defaultConfig, false) ∧
    false = false :=
  ⟨rfl,
    c9_no_auto_enable_when_field_preserved initialState "a"
      (fun rc hrc => by
        have h2 : (fun config => (.ok config : Except JSVal Config)) = rc :=
          Option.some.inj hrc
        intro cfg cfg2 hown hok
        rw [← h2] at hok
        have h3 : cfg = cfg2 := Except.ok.inj hok
        rwa [← h3])
      (fun nm c hlook => by
        exact absurd hlook (by
          show lookupEntry ([] : List (String × Option Configurator)) nm ≠ _
          simp [lookupEntry]))
      defaultConfig false rfl⟩

/-- C10: cache and presence-tree coherence.  On every reachable engine
state a logger name is a key of the implementation cache exactly when
the presence-tree node reached by its slash segments exists with its
present flag true; and a resolution whose configuration computation
throws propagates the error before the cache and the tree are touched
(getImplementation errors instead of producing a new state). -/
theorem c10_cache_tree_coherence :
    (∀ s : EngineState, Reachable s → ∀ name : String,
      (lookupEntry s.implementationMap name).isSome = true ↔
        presentAt s.knownImplementations (splitLoggerName name)) ∧
    (∀ (s : EngineState) (loggerName : String) (e : JSVal),
      lookupEntry s.implementationMap loggerName = none →
      buildImplementation s loggerName = .error e →
      getImplementation s loggerName = .error e) := by
  constructor
  · intro s hr name
    exact (coherent_of_reachable s hr).cache_tree name
  · intro s loggerName e hnone hbuild
    unfold getImplementation
    rw [hnone, hbuild]

/-- Witness for C10: the coherence instance on the initial state, and a
concrete throwing root configurator leaving getImplementation erroring
with the thrown value. -/
theorem c10_witness :
    ((lookupEntry initialState.implementationMap "a").isSome = true ↔
      presentAt initialState.knownImplementations (splitLoggerName "a")) ∧
    getImplementation c10ThrowState "x" = .error (.vStr "boom") :=
  ⟨c10_cache_tree_coherence.1 initialState Reachable.init "a",
   c10_cache_tree_coherence.2 c10ThrowState "x" (.vStr "boom") rfl rfl⟩

